import Mathlib

/-!
Verification model of the acronym-expander content script.

The definitions below are shallow embeddings of the JavaScript source:
the detector regex and fragment construction of
`AcronymExpander.processTextNode`, the skip predicate
`AcronymExpander.shouldSkipAcronym`, the page traversal
`AcronymExpander.processPage`, the hover/cache/message machinery of
`AcronymExpander.handleMouseOver` and `AcronymExpander.setupMessageHandling`,
the settings handler `AcronymExpander.handleSettingsChange`, and the
iframe-side message listener.  Text is modelled as `List Char`; the DOM as an
inductive tree; the asynchronous page-side logic as a step function on an
explicit state driven by a list of events.
-/

namespace AcronymExpander

/-! Character classes of the JavaScript regex (no `u` flag, so the classes
are the ASCII ones; `\w` is `[A-Za-z0-9_]`). -/

def isUpperA (c : Char) : Bool := 'A' ≤ c && c ≤ 'Z'

def isLowerA (c : Char) : Bool := 'a' ≤ c && c ≤ 'z'

def isDigitA (c : Char) : Bool := '0' ≤ c && c ≤ '9'

def isWordChar (c : Char) : Bool := isUpperA c || isLowerA c || isDigitA c || c == '_'

def isUpperDigit (c : Char) : Bool := isUpperA c || isDigitA c

/-- The word-boundary test `\b` between a last matched character and the
remaining input: a boundary holds iff exactly one side is a word character,
where the end of the string counts as a non-word side. -/
def boundaryAfter (lastC : Char) (rest : List Char) : Bool :=
  match rest with
  | [] => isWordChar lastC
  | c :: _ => isWordChar lastC != isWordChar c

/-- Alternative `[A-Z]{2,}(?:\d*[A-Z]*)*` of the acronym regex
(`processTextNode`, the `acronymPattern` literal).  The greedy quantifiers
consume the maximal run of uppercase letters followed by the maximal run of
digits and uppercase letters.  The trailing `\b` can only be satisfied at the
end of that maximal run: any backtracked shorter end sits directly before an
uppercase letter or digit, which is a word character, so the boundary fails
there.  Hence the alternative matches the full run or not at all.  The run
ends in an uppercase letter or digit (a word character), so the boundary
holds iff the next character is absent or is not a word character. -/
def altUpper (cs : List Char) : Option (List Char) :=
  let us := cs.takeWhile isUpperA
  if 2 ≤ us.length then
    let tailU := cs.dropWhile isUpperA
    let ds := tailU.takeWhile isUpperDigit
    match (tailU.dropWhile isUpperDigit).head? with
    | none => some (us ++ ds)
    | some c => if isWordChar c then none else some (us ++ ds)
  else none

/-- Alternatives `i[A-Z][a-z]+` and `e[A-Z][a-z]+` of the acronym regex,
parameterised by the lead character.  As for `altUpper`, the greedy `[a-z]+`
together with the trailing `\b` matches the maximal lowercase run or nothing:
a shorter end sits before a lowercase (word) character. -/
def altLeadLower (lead : Char) (cs : List Char) : Option (List Char) :=
  match cs with
  | c0 :: c1 :: rest =>
    if c0 == lead && isUpperA c1 then
      let ls := rest.takeWhile isLowerA
      if 1 ≤ ls.length then
        match (rest.dropWhile isLowerA).head? with
        | none => some (c0 :: c1 :: ls)
        | some c => if isWordChar c then none else some (c0 :: c1 :: ls)
      else none
    else none
  | _ => none

/-- Strips `lead` from the front of the second list, returning the remainder
when the second list starts with `lead`. -/
def stripLead : List Char → List Char → Option (List Char)
  | [], rest => some rest
  | _, [] => none
  | a :: as, b :: bs => if a == b then stripLead as bs else none

def frameworkBases : List (List Char) :=
  [String.toList "Node", String.toList "Web", String.toList "React",
    String.toList "Vue", String.toList "Next"]

/-- Tries the framework base names in the regex's alternation order.  No base
is a prefix of another, so at most one can match. -/
def findBase : List (List Char) → List Char → Option (List Char × List Char)
  | [], _ => none
  | b :: bs, cs =>
    match stripLead b cs with
    | some rest => some (b, rest)
    | none => findBase bs cs

/-- The suffixes generated by `\.?(?:js|JS)?` in greedy backtracking order:
dot with `js`, dot with `JS`, dot alone, `js`, `JS`, empty. -/
def suffixCands : List (List Char) :=
  [['.', 'j', 's'], ['.', 'J', 'S'], ['.'], ['j', 's'], ['J', 'S'], []]

/-- Backtracking over the optional suffixes of the framework alternative:
the first candidate that is present in the input and satisfies the trailing
word boundary wins. -/
def tryCands (base : List Char) (rest : List Char) : List (List Char) → Option (List Char)
  | [] => none
  | sfx :: more =>
    match stripLead sfx rest with
    | some rem =>
      match (base ++ sfx).getLast? with
      | some lastC =>
        if boundaryAfter lastC rem then some (base ++ sfx) else tryCands base rest more
      | none => tryCands base rest more
    | none => tryCands base rest more

/-- Alternative `(?:Node|Web|React|Vue|Next)\.?(?:js|JS)?` of the acronym
regex. -/
def altFramework (cs : List Char) : Option (List Char) :=
  match findBase frameworkBases cs with
  | some (base, rest) => tryCands base rest suffixCands
  | none => none

/-- One attempt of the regex alternation at the current position, in the
pattern's order. -/
def matchCore (cs : List Char) : Option (List Char) :=
  match altUpper cs with
  | some t => some t
  | none =>
    match altLeadLower 'i' cs with
    | some t => some t
    | none =>
      match altLeadLower 'e' cs with
      | some t => some t
      | none => altFramework cs

/-- A match attempt at one position including the leading `\b`: every
alternative of the pattern begins with a word character, so when the
character before the position is a word character the leading boundary fails
for every alternative and nothing matches (when the position's own character
is not a word character, no alternative can start there either way). -/
def matchHere (prevWord : Bool) (cs : List Char) : Option (List Char) :=
  if prevWord then none else matchCore cs

def lastIsWord (t : List Char) : Bool :=
  match t.getLast? with
  | some c => isWordChar c
  | none => false

/-- The `exec` loop of the global regex: starting from the current position,
try to match; on success record the match and resume directly after it (the
next attempt sees the match's last character as its previous character); on
failure advance one character.  The fuel argument bounds the number of steps;
`rawMatches` supplies enough fuel for the whole input. -/
def scanFuel : Nat → Bool → Nat → List Char → List (Nat × List Char)
  | 0, _, _, _ => []
  | _ + 1, _, _, [] => []
  | fuel + 1, prevWord, pos, c :: rest =>
    match matchHere prevWord (c :: rest) with
    | some tok =>
      (pos, tok) :: scanFuel fuel (lastIsWord tok) (pos + tok.length) ((c :: rest).drop tok.length)
    | none => scanFuel fuel (isWordChar c) (pos + 1) rest

/-- All raw regex matches of a text with their start offsets, in scan
order. -/
def rawMatches (text : List Char) : List (Nat × List Char) :=
  scanFuel text.length false 0 text

/-- The skip set and length test of `AcronymExpander.shouldSkipAcronym`. -/
def nonTechWords : List String :=
  ["USA", "UK", "EU", "UN", "Mr", "Mrs", "Ms", "Dr", "AM", "PM"]

def shouldSkipAcronym (acronym : String) : Bool :=
  nonTechWords.contains acronym || acronym.length > 12

/-- Raw matches surviving the `shouldSkipAcronym` filter (the `continue` in
the `exec` loop of `processTextNode` drops a skipped match but still resumes
scanning after it). -/
def acceptedMatches (text : List Char) : List (Nat × List Char) :=
  (rawMatches text).filter (fun m => !shouldSkipAcronym (String.mk m.2))

/-- A DOM fragment produced by `processTextNode`: a plain text node or a
marked span carrying its term (the span's text content and its
`data-acronym` attribute are both the term). -/
inductive Frag where
  | plain : List Char → Frag
  | mark : List Char → Frag
deriving DecidableEq, Repr

/-- The fragment-building loop of `processTextNode`: before each accepted
match, push the plain text since `lastIndex` when nonempty, then the marked
span; after the loop, push the plain tail when nonempty. -/
def fragsLoop (text : List Char) : List (Nat × List Char) → Nat → List Frag
  | [], lastIndex =>
    if lastIndex < text.length then [Frag.plain (text.drop lastIndex)] else []
  | (i, tok) :: ms, lastIndex =>
    (if lastIndex < i then [Frag.plain ((text.drop lastIndex).take (i - lastIndex))] else [])
      ++ Frag.mark tok :: fragsLoop text ms (i + tok.length)

/-- `AcronymExpander.processTextNode`: texts shorter than two characters are
returned untouched, and the node is replaced by the fragment container only
when `fragments.length > 1`; `none` means the node is left untouched. -/
def processTextNode (text : List Char) : Option (List Frag) :=
  if text.length < 2 then none
  else
    let fragments := fragsLoop text (acceptedMatches text) 0
    if 1 < fragments.length then some fragments else none

















/-! Page-side hover, cache and message-channel model.

`AcronymCache` in the source has `expansions : Map<string, string>` and
`pending`, declared as `Map<string, Promise<string>>` but actually storing
the `resolve` function of the promise created by the first hover.  We model
the observable state of the page: the two maps as association lists, the
log of `EXPAND_ACRONYM` messages posted to the iframe (`outbox`), and the
outcome of every hover handler invocation that has completed.  A hover that
is still awaiting an unresolved promise has no entry in `completed`. -/

/-- Outcome of one completed `handleMouseOver` invocation. -/
inductive HoverOutcome where
  | shown : String → HoverOutcome
  | silent : HoverOutcome
  | errorCaught : HoverOutcome
deriving DecidableEq, Repr

structure SysState where
  expansions : List (String × String)
  pendingTerms : List (String × Nat)
  outbox : List String
  completed : List (Nat × HoverOutcome)
deriving DecidableEq, Repr

def initState : SysState := ⟨[], [], [], []⟩

/-- ASCII whitespace, for modelling JavaScript `String.prototype.trim`. -/
def isSpaceA (c : Char) : Bool :=
  c == ' ' || c == '\t' || c == '\n' || c == '\r' || c == '\x0b' || c == '\x0c'

def trimL (cs : List Char) : List Char :=
  ((cs.dropWhile isSpaceA).reverse.dropWhile isSpaceA).reverse

/-- JavaScript `String.prototype.trim`. -/
def trimJS (s : String) : String := String.mk (trimL s.toList)

/-- JavaScript `String.prototype.toLowerCase` (ASCII range). -/
def toLowerJS (s : String) : String := String.mk (s.toList.map Char.toLower)

/-- `Map.set`: overwrite the existing entry in place, else append. -/
def setAssoc (k v : String) : List (String × String) → List (String × String)
  | [] => [(k, v)]
  | (k1, v1) :: rest => if k1 = k then (k, v) :: rest else (k1, v1) :: setAssoc k v rest

/-- `Map.delete`. -/
def eraseAssoc (k : String) : List (String × Nat) → List (String × Nat)
  | [] => []
  | (k1, v1) :: rest => if k1 = k then rest else (k1, v1) :: eraseAssoc k rest

/-- The miss path of `AcronymExpander.handleMouseOver` (reached when
`!expansion`).  With no pending entry for the term, the handler creates the
promise: its executor posts one `EXPAND_ACRONYM` message and stores the
promise's `resolve` function in `cache.pending`; the hover then awaits the
promise.  With a pending entry present, the handler reads the stored value -
the resolver function, not a promise (contrast the `AcronymCache` typedef) -
and `await` of a non-thenable yields the function itself, so
`expansion.trim()` raises a TypeError which the surrounding `try` catches
and logs: this hover completes with no tooltip and never sees the resolved
value. -/
def handleMiss (s : SysState) (id : Nat) (term : String) : SysState :=
  match s.pendingTerms.lookup term with
  | some _ => { s with completed := s.completed ++ [(id, HoverOutcome.errorCaught)] }
  | none =>
    { s with outbox := s.outbox ++ [term], pendingTerms := s.pendingTerms ++ [(term, id)] }

/-- `AcronymExpander.handleMouseOver` for a hover (with identifier `id`) over
a marked span carrying `term`.  In JavaScript `!expansion` is true both when
the term is absent from `cache.expansions` and when the cached value is the
empty string, so both fall into the miss path.  On a hit with a non-empty
value the tooltip is shown iff the trimmed value is non-empty. -/
def handleMouseOver (s : SysState) (id : Nat) (term : String) : SysState :=
  match s.expansions.lookup term with
  | some v =>
    if v = "" then handleMiss s id term
    else
      { s with
        completed := s.completed ++
          [(id, if trimJS v = "" then HoverOutcome.silent else HoverOutcome.shown v)] }
  | none => handleMiss s id term

/-- The `EXPANSION_RESULT` branch of the listener installed by
`AcronymExpander.setupMessageHandling`: the received expansion is written to
`cache.expansions` unconditionally; then, when a pending resolver exists for
the term, it is called - resuming the hover that created the promise, which
shows the tooltip iff the value is a non-empty string with non-empty trim -
and the pending entry is deleted. -/
def handleExpansionResult (s : SysState) (term expansion : String) : SysState :=
  let s1 := { s with expansions := setAssoc term expansion s.expansions }
  match s.pendingTerms.lookup term with
  | some creator =>
    { s1 with
      completed := s1.completed ++
        [(creator,
          if expansion = "" then HoverOutcome.silent
          else if trimJS expansion = "" then HoverOutcome.silent
          else HoverOutcome.shown expansion)],
      pendingTerms := eraseAssoc term s1.pendingTerms }
  | none => s1

/-- The events the page-side state reacts to: a mouseover on a marked span,
and an inbound `EXPANSION_RESULT` message from the iframe. -/
inductive PageEvent where
  | hover : Nat → String → PageEvent
  | result : String → String → PageEvent
deriving DecidableEq, Repr

def stepEvent (s : SysState) : PageEvent → SysState
  | PageEvent.hover id term => handleMouseOver s id term
  | PageEvent.result term expansion => handleExpansionResult s term expansion

def runEvents (s : SysState) (evs : List PageEvent) : SysState :=
  evs.foldl stepEvent s

/-! Iframe-side model (the `EXPAND_ACRONYM` message listener). -/

def startsWithL : List Char → List Char → Bool
  | [], _ => true
  | _, [] => false
  | a :: as, b :: bs => a == b && startsWithL as bs

/-- `String.prototype.includes` on character lists. -/
def containsSub (needle : List Char) : List Char → Bool
  | [] => needle.isEmpty
  | c :: rest => startsWithL needle (c :: rest) || containsSub needle rest

def notTechPhrase : List Char := String.toList "not a tech term"

/-- The iframe's `EXPAND_ACRONYM` listener: when the AI call throws
(`aiOutcome = none`) the catch branch sends the empty string; otherwise the
response is trimmed, a result whose lowercase form contains
"not a tech term" is replaced by the empty string, and `sendExpansionResult`
trims once more before posting `EXPANSION_RESULT`. -/
def iframeReply (aiOutcome : Option String) : String :=
  match aiOutcome with
  | none => trimJS ""
  | some response =>
    let result := trimJS response
    if containsSub notTechPhrase (String.toList (toLowerJS result)) then trimJS ""
    else trimJS result









/-! DOM model for the page traversal, the mutation re-scan and the settings
handler.  An element carries its tag name, its class list, its
`data-acronym` attribute and its children. -/

mutual
inductive Dom where
  | textNode : List Char → Dom
  | elem : String → List String → Option String → DomList → Dom
inductive DomList where
  | nil : DomList
  | cons : Dom → DomList → DomList
end

def markerClass : String := "acronym-expander"

def opaqueTags : List String := ["script", "style", "code", "pre"]

/-- The `acceptNode` filter of the tree walker in
`AcronymExpander.processPage`: a text node is rejected when its parent
element carries the marker class or its (lowercased) tag is one of the
opaque kinds.  The filter inspects only the immediate parent. -/
def rejectsText (tag : String) (classes : List String) : Bool :=
  classes.contains markerClass || opaqueTags.contains (toLowerJS tag)

/-- The DOM node built for one fragment of `processTextNode`: plain fragments
become text nodes; a match becomes a span with the marker class, the term as
text content and the term in `data-acronym`. -/
def fragToDom : Frag → Dom
  | Frag.plain s => Dom.textNode s
  | Frag.mark t =>
    Dom.elem "span" [markerClass] (some (String.mk t))
      (DomList.cons (Dom.textNode t) DomList.nil)

def fragsToDomList : List Frag → DomList
  | [] => DomList.nil
  | f :: fs => DomList.cons (fragToDom f) (fragsToDomList fs)

mutual
/-- One node of the `processPage` traversal.  `parentRejects` is the walker
filter's verdict computed from the node's parent element: a rejected text
node is left untouched; an accepted one is handed to `processTextNode` and
structurally replaced by the container span when fragments are returned.
Element nodes are not filtered themselves (the walker shows text nodes
only); their text children are filtered by the element's own tag and
classes. -/
def processNode (parentRejects : Bool) : Dom → Dom
  | Dom.textNode s =>
    if parentRejects then Dom.textNode s
    else
      match processTextNode s with
      | none => Dom.textNode s
      | some frags => Dom.elem "span" [] none (fragsToDomList frags)
  | Dom.elem tag classes dat ch =>
    Dom.elem tag classes dat (processChildren (rejectsText tag classes) ch)
def processChildren (parentRejects : Bool) : DomList → DomList
  | DomList.nil => DomList.nil
  | DomList.cons d ds =>
    DomList.cons (processNode parentRejects d) (processChildren parentRejects ds)
end

/-- `AcronymExpander.processPage` scoped to `root`: the tree walker visits
the text-bearing descendants of the root but not the root itself, so a text
root is untouched, and an element root has its descendants processed with
the filter applied at each text node's parent. -/
def processPage : Dom → Dom
  | Dom.textNode s => Dom.textNode s
  | Dom.elem tag classes dat ch =>
    Dom.elem tag classes dat (processChildren (rejectsText tag classes) ch)

mutual
/-- Number of elements carrying the marker class (the marked spans). -/
def countMarkedD : Dom → Nat
  | Dom.textNode _ => 0
  | Dom.elem _ classes _ ch =>
    (if classes.contains markerClass then 1 else 0) + countMarkedL ch
def countMarkedL : DomList → Nat
  | DomList.nil => 0
  | DomList.cons d ds => countMarkedD d + countMarkedL ds
end

mutual
/-- The disabled branch of `AcronymExpander.handleSettingsChange`:
`querySelectorAll(".acronym-expander")` selects every element carrying the
marker class and `classList.remove` deletes exactly that class; elements
without the class are untouched by the selector, which coincides with
filtering the class out everywhere. -/
def stripMarkerD : Dom → Dom
  | Dom.textNode s => Dom.textNode s
  | Dom.elem tag classes dat ch =>
    Dom.elem tag (classes.filter (fun c => c != markerClass)) dat (stripMarkerL ch)
def stripMarkerL : DomList → DomList
  | DomList.nil => DomList.nil
  | DomList.cons d ds => DomList.cons (stripMarkerD d) (stripMarkerL ds)
end

/-- `AcronymExpander.handleSettingsChange` acting on the page DOM and the
page-side cache state: disabling strips the marker class from all marked
spans; enabling re-runs the full-page traversal.  Neither branch touches
the cache state. -/
def handleSettingsChange (extensionEnabled : Bool) (dom : Dom) (cache : SysState) :
    Dom × SysState :=
  if extensionEnabled then (processPage dom, cache)
  else (stripMarkerD dom, cache)

mutual
/-- Projection erasing every class list, for stating that an operation
changes nothing but classes. -/
def forgetClassesD : Dom → Dom
  | Dom.textNode s => Dom.textNode s
  | Dom.elem tag _ dat ch => Dom.elem tag [] dat (forgetClassesL ch)
def forgetClassesL : DomList → DomList
  | DomList.nil => DomList.nil
  | DomList.cons d ds => DomList.cons (forgetClassesD d) (forgetClassesL ds)
end

mutual
/-- The class lists of all elements in document order. -/
def classListsD : Dom → List (List String)
  | Dom.textNode _ => []
  | Dom.elem _ classes _ ch => classes :: classListsL ch
def classListsL : DomList → List (List String)
  | DomList.nil => []
  | DomList.cons d ds => classListsD d ++ classListsL ds
end


/-- Concatenated text of a fragment list (a marked span's text content is
its term). -/
def fragsText : List Frag → List Char
  | [] => []
  | Frag.plain s :: fs => s ++ fragsText fs
  | Frag.mark t :: fs => t ++ fragsText fs

/-- The terms carried by the marked spans of a fragment list, in order. -/
def fragTerms : List Frag → List (List Char)
  | [] => []
  | Frag.plain _ :: fs => fragTerms fs
  | Frag.mark t :: fs => t :: fragTerms fs

/-- Every listed match sits inside the text at its recorded offset and is at
least two characters long. -/
def Located (text : List Char) (ms : List (Nat × List Char)) : Prop :=
  ∀ m ∈ ms, 2 ≤ m.2.length ∧ m.1 + m.2.length ≤ text.length ∧
    m.2 = (text.drop m.1).take m.2.length

/-- The matches start at or after the lower bound and are pairwise disjoint
in increasing order. -/
inductive Chained : Nat → List (Nat × List Char) → Prop
  | nil : ∀ lb, Chained lb []
  | cons : ∀ lb p t ms, lb ≤ p → Chained (p + t.length) ms → Chained lb ((p, t) :: ms)


/-- Invariant used to show that a hover awaiting a response that never
arrives stays blocked: hover id 1 has not completed, its pending entry for
"API" is in place, and id 1 waits under no other term. -/
def BlockedInv (s : SysState) : Prop :=
  (∀ out, (1, out) ∉ s.completed) ∧
  s.pendingTerms.lookup "API" = some 1 ∧
  (∀ p ∈ s.pendingTerms, p.2 = 1 → p.1 = "API")


/-- First characters a match can start with: an uppercase letter or the
lead letters of the `i`/`e` alternatives (the framework names also start
with uppercase letters). -/
def isStartChar (c : Char) : Bool := isUpperA c || c == 'i' || c == 'e'

/-- The accepted sublist of a match list (the complement of the skip
filter). -/
def acceptedOf (ms : List (Nat × List Char)) : List (Nat × List Char) :=
  ms.filter (fun m => !shouldSkipAcronym (String.mk m.2))

/-! End of the embedding; everything below is theorems about it. -/

example : rawMatches (String.toList "The USA uses an API for PM updates") =
    [(4, String.toList "USA"), (16, String.toList "API"), (24, String.toList "PM")] := by
  decide

example : acceptedMatches (String.toList "The USA uses an API for PM updates") =
    [(16, String.toList "API")] := by decide

example : rawMatches (String.toList "ABCDEFGHIJKLM") =
    [(0, String.toList "ABCDEFGHIJKLM")] := by decide

example : acceptedMatches (String.toList "ABCDEFGHIJKLM") = [] := by decide

example : acceptedMatches (String.toList "ABCDEFGHIJKL") =
    [(0, String.toList "ABCDEFGHIJKL")] := by decide

example : processTextNode (String.toList "Check the GPU and HDR settings") =
    some [Frag.plain (String.toList "Check the "), Frag.mark (String.toList "GPU"),
      Frag.plain (String.toList " and "), Frag.mark (String.toList "HDR"),
      Frag.plain (String.toList " settings")] := by decide

example : processTextNode (String.toList "API") = none := by decide

example : acceptedMatches (String.toList "API") = [(0, String.toList "API")] := by decide

example :
    runEvents initState
      [PageEvent.hover 1 "API", PageEvent.hover 2 "API",
        PageEvent.result "API" "Application Programming Interface: x"] =
      { expansions := [("API", "Application Programming Interface: x")],
        pendingTerms := [],
        outbox := ["API"],
        completed := [(2, HoverOutcome.errorCaught),
          (1, HoverOutcome.shown "Application Programming Interface: x")] } := by
  decide

example :
    (runEvents initState
      [PageEvent.hover 1 "HDR", PageEvent.result "HDR" "", PageEvent.hover 2 "HDR"]).outbox =
      ["HDR", "HDR"] := by decide

example : iframeReply (some "  Not A Tech Term ") = "" := by decide

example : iframeReply none = "" := by decide

/-! Association-list helper lemmas. -/

theorem lookup_setAssoc_self (k v : String) :
    ∀ l : List (String × String), (setAssoc k v l).lookup k = some v
  | [] => by simp [setAssoc, List.lookup]
  | (k1, v1) :: rest => by
    by_cases h : k1 = k
    · simp [setAssoc, h, List.lookup]
    · have hb : (k == k1) = false := by simp [Ne.symm h]
      simp [setAssoc, h, List.lookup, hb, lookup_setAssoc_self k v rest]

theorem lookup_setAssoc_ne (k1 v k : String) (h : k1 ≠ k) :
    ∀ l : List (String × String), (setAssoc k1 v l).lookup k = l.lookup k
  | [] => by
    have hb : (k == k1) = false := by simp [Ne.symm h]
    simp [setAssoc, List.lookup, hb]
  | (k2, v2) :: rest => by
    by_cases h2 : k2 = k1
    · subst h2
      have hb : (k == k2) = false := by simp [Ne.symm h]
      simp [setAssoc, List.lookup, hb]
    · cases hk : (k == k2) with
      | true => simp [setAssoc, h2, List.lookup, hk]
      | false => simp [setAssoc, h2, List.lookup, hk, lookup_setAssoc_ne k1 v k h rest]

theorem expansions_handleExpansionResult (s : SysState) (t w : String) :
    (handleExpansionResult s t w).expansions = setAssoc t w s.expansions := by
  unfold handleExpansionResult
  cases hp : s.pendingTerms.lookup t <;> simp [hp]

theorem expansions_handleMiss (s : SysState) (id : Nat) (t : String) :
    (handleMiss s id t).expansions = s.expansions := by
  unfold handleMiss
  cases hp : s.pendingTerms.lookup t <;> simp [hp]

theorem expansions_handleMouseOver (s : SysState) (id : Nat) (t : String) :
    (handleMouseOver s id t).expansions = s.expansions := by
  unfold handleMouseOver
  cases hl : s.expansions.lookup t with
  | none => simp [hl, expansions_handleMiss]
  | some v =>
    by_cases hv : v = "" <;> simp [hl, hv, expansions_handleMiss]

/-- C5: the Detector's exclusion predicate rejects a raw-matched token
exactly when the token is in the fixed skip-set or longer than 12
characters; on "The USA uses an API for PM updates" the raw matches are
"USA", "API" and "PM" at offsets 4, 16 and 24 and only "API" survives the
filter; the 13-character all-uppercase token "ABCDEFGHIJKLM" is raw-matched
but rejected for its length, while the 12-character "ABCDEFGHIJKL" is
accepted. -/
theorem c5_exclusion_predicate :
    (∀ a : String, shouldSkipAcronym a = true ↔ (a ∈ nonTechWords ∨ 12 < a.length)) ∧
    rawMatches (String.toList "The USA uses an API for PM updates") =
      [(4, String.toList "USA"), (16, String.toList "API"), (24, String.toList "PM")] ∧
    acceptedMatches (String.toList "The USA uses an API for PM updates") =
      [(16, String.toList "API")] ∧
    rawMatches (String.toList "ABCDEFGHIJKLM") = [(0, String.toList "ABCDEFGHIJKLM")] ∧
    acceptedMatches (String.toList "ABCDEFGHIJKLM") = [] ∧
    acceptedMatches (String.toList "ABCDEFGHIJKL") = [(0, String.toList "ABCDEFGHIJKL")] := by
  refine ⟨fun a => ?_, by decide, by decide, by decide, by decide, by decide⟩
  simp [shouldSkipAcronym, Bool.or_eq_true, List.elem_iff, decide_eq_true_iff]

/-- C6: segmentation of the text node "Check the GPU and HDR settings"
replaces it by exactly five fragments in left-to-right order: plain text
"Check the ", a marked span carrying "GPU", plain text " and ", a marked
span carrying "HDR", and plain text " settings". -/
theorem c6_end_to_end_segmentation :
    processTextNode (String.toList "Check the GPU and HDR settings") =
      some [Frag.plain (String.toList "Check the "), Frag.mark (String.toList "GPU"),
        Frag.plain (String.toList " and "), Frag.mark (String.toList "HDR"),
        Frag.plain (String.toList " settings")] := by decide

/-- C1: with two concurrent hovers (ids 1 and 2) over spans carrying the
identical term "API", the single-flight half of the claim holds - exactly
one EXPAND_ACRONYM message is posted - but the fan-out half fails: the
second hover completes with a caught TypeError before the response arrives
(it awaited the resolver function stored in `cache.pending`, not a
promise), so only the first hover receives the resolved expansion. -/
theorem c1_single_flight_without_fanout :
    (runEvents initState
      [PageEvent.hover 1 "API", PageEvent.hover 2 "API",
        PageEvent.result "API" "Application Programming Interface: x"]).outbox = ["API"] ∧
    (runEvents initState
      [PageEvent.hover 1 "API", PageEvent.hover 2 "API",
        PageEvent.result "API" "Application Programming Interface: x"]).completed =
      [(2, HoverOutcome.errorCaught),
        (1, HoverOutcome.shown "Application Programming Interface: x")] ∧
    HoverOutcome.errorCaught ≠
      HoverOutcome.shown "Application Programming Interface: x" := by decide

/-- C2 (counterexample): after "HDR" resolves to the empty string the cache
holds a Resolved entry with the empty value, yet a subsequent hover on
"HDR" posts a second outbound request, because `!expansion` treats the
cached empty string like a missing entry. -/
theorem c2_counterexample :
    (runEvents initState
        [PageEvent.hover 1 "HDR", PageEvent.result "HDR" ""]).expansions.lookup "HDR" =
      some "" ∧
    (runEvents initState
      [PageEvent.hover 1 "HDR", PageEvent.result "HDR" "",
        PageEvent.hover 2 "HDR"]).outbox = ["HDR", "HDR"] := by decide

/-- C2 (amended): a Resolved entry is never evicted - after any further
event the term still has a cached value - and when the cached value is
non-empty a subsequent hover leaves the outbox, the expansion cache and the
pending map unchanged (in particular it issues no new outbound request) and
completes directly from the cache with the cached value: the tooltip shows
the cached value when its trim is non-empty and stays silent otherwise. -/
theorem c2_amended_cache_stability (s : SysState) (term v : String)
    (hv : s.expansions.lookup term = some v) :
    (∀ e : PageEvent, ∃ w, (stepEvent s e).expansions.lookup term = some w) ∧
    (v ≠ "" → ∀ id : Nat,
      (handleMouseOver s id term).outbox = s.outbox ∧
      (handleMouseOver s id term).expansions = s.expansions ∧
      (handleMouseOver s id term).pendingTerms = s.pendingTerms ∧
      (handleMouseOver s id term).completed = s.completed ++
        [(id, if trimJS v = "" then HoverOutcome.silent else HoverOutcome.shown v)]) := by
  constructor
  · intro e
    cases e with
    | hover id t =>
      exact ⟨v, by simp [stepEvent, expansions_handleMouseOver, hv]⟩
    | result t w =>
      by_cases ht : t = term
      · subst ht
        exact ⟨w, by simp [stepEvent, expansions_handleExpansionResult, lookup_setAssoc_self]⟩
      · exact ⟨v, by
          simp [stepEvent, expansions_handleExpansionResult, lookup_setAssoc_ne t w term ht, hv]⟩
  · intro hne id
    unfold handleMouseOver
    simp [hv, hne]

theorem c2_amended_cache_stability_witness :
    (∀ e : PageEvent,
      ∃ w, (stepEvent (SysState.mk [("GPU", "Graphics Processing Unit: x")] [] [] [])
        e).expansions.lookup "GPU" = some w) ∧
    ("Graphics Processing Unit: x" ≠ "" → ∀ id : Nat,
      (handleMouseOver (SysState.mk [("GPU", "Graphics Processing Unit: x")] [] [] [])
          id "GPU").outbox =
        (SysState.mk [("GPU", "Graphics Processing Unit: x")] [] [] []).outbox ∧
      (handleMouseOver (SysState.mk [("GPU", "Graphics Processing Unit: x")] [] [] [])
          id "GPU").expansions =
        (SysState.mk [("GPU", "Graphics Processing Unit: x")] [] [] []).expansions ∧
      (handleMouseOver (SysState.mk [("GPU", "Graphics Processing Unit: x")] [] [] [])
          id "GPU").pendingTerms =
        (SysState.mk [("GPU", "Graphics Processing Unit: x")] [] [] []).pendingTerms ∧
      (handleMouseOver (SysState.mk [("GPU", "Graphics Processing Unit: x")] [] [] [])
          id "GPU").completed =
        (SysState.mk [("GPU", "Graphics Processing Unit: x")] [] [] []).completed ++
          [(id, if trimJS "Graphics Processing Unit: x" = "" then HoverOutcome.silent
            else HoverOutcome.shown "Graphics Processing Unit: x")]) :=
  c2_amended_cache_stability _ "GPU" "Graphics Processing Unit: x" (by decide)

/-- C10 (counterexample): an EXPANSION_RESULT for "GPU" arriving with no
pending entry leaves the pending map and the completed outcomes unchanged
but does modify the resolution cache, caching the carried expansion. -/
theorem c10_counterexample :
    (handleExpansionResult initState "GPU" "Graphics Processing Unit: x").pendingTerms =
      initState.pendingTerms ∧
    (handleExpansionResult initState "GPU" "Graphics Processing Unit: x").completed =
      initState.completed ∧
    (handleExpansionResult initState "GPU" "Graphics Processing Unit: x").expansions ≠
      initState.expansions := by decide

/-- C10 (amended): an EXPANSION_RESULT carrying a term with no pending entry
is tolerated without crashing and resolves nothing - the pending map, the
outbox and the completed hover outcomes stay as they were - but the carried
expansion is still written into the resolution cache for that term. -/
theorem c10_amended_unsolicited_result (s : SysState) (term v : String)
    (h : s.pendingTerms.lookup term = none) :
    handleExpansionResult s term v = { s with expansions := setAssoc term v s.expansions } := by
  unfold handleExpansionResult
  simp [h]

theorem c10_amended_unsolicited_result_witness :
    handleExpansionResult initState "GPU" "Graphics Processing Unit: x" =
      { initState with
        expansions := setAssoc "GPU" "Graphics Processing Unit: x" initState.expansions } :=
  c10_amended_unsolicited_result initState "GPU" "Graphics Processing Unit: x" (by decide)

/-- C3 (counterexample): the text node whose whole text is "API" contains
exactly one accepted match, yet `processTextNode` leaves the node untouched:
the partition is the single fragment `[mark "API"]`, which fails the
`fragments.length > 1` replacement test, so no container replaces the node
and no span is created. -/
theorem c3_counterexample :
    acceptedMatches (String.toList "API") = [(0, String.toList "API")] ∧
    fragsLoop (String.toList "API") (acceptedMatches (String.toList "API")) 0 =
      [Frag.mark (String.toList "API")] ∧
    processTextNode (String.toList "API") = none := by decide

/-! Structure-preservation lemmas for the settings handler. -/

mutual
theorem forgetClasses_stripMarker_d (d : Dom) :
    forgetClassesD (stripMarkerD d) = forgetClassesD d := by
  cases d with
  | textNode s => rfl
  | elem tag classes dat ch =>
    simp [stripMarkerD, forgetClassesD, forgetClasses_stripMarker_l ch]
theorem forgetClasses_stripMarker_l (ds : DomList) :
    forgetClassesL (stripMarkerL ds) = forgetClassesL ds := by
  cases ds with
  | nil => rfl
  | cons d ds =>
    simp [stripMarkerL, forgetClassesL, forgetClasses_stripMarker_d d,
      forgetClasses_stripMarker_l ds]
end

mutual
theorem classLists_stripMarker_d (d : Dom) :
    classListsD (stripMarkerD d) =
      (classListsD d).map (fun cl => cl.filter (fun c => c != markerClass)) := by
  cases d with
  | textNode s => rfl
  | elem tag classes dat ch =>
    simp [stripMarkerD, classListsD, classLists_stripMarker_l ch]
theorem classLists_stripMarker_l (ds : DomList) :
    classListsL (stripMarkerL ds) =
      (classListsL ds).map (fun cl => cl.filter (fun c => c != markerClass)) := by
  cases ds with
  | nil => rfl
  | cons d ds =>
    simp [stripMarkerL, classListsL, classLists_stripMarker_d d, classLists_stripMarker_l ds]
end

/-- C9: on a settings-changed event with `extensionEnabled = false` the only
state change is the removal of the marker class: the cache state is returned
untouched, the DOM with class lists erased is equal to the original one
(tags, text nodes, `data-acronym` attributes and the tree shape are all
preserved), and each element's class list afterwards is its previous class
list with exactly the marker class filtered out. -/
theorem c9_disable_strips_only_marker_class (d : Dom) (cache : SysState) :
    (handleSettingsChange false d cache).2 = cache ∧
    forgetClassesD (handleSettingsChange false d cache).1 = forgetClassesD d ∧
    classListsD (handleSettingsChange false d cache).1 =
      (classListsD d).map (fun cl => cl.filter (fun c => c != markerClass)) := by
  refine ⟨rfl, ?_, ?_⟩ <;>
    simp [handleSettingsChange, forgetClasses_stripMarker_d, classLists_stripMarker_d]

/-- C7 (counterexample): the "no tooltip is ever shown for that term" half
fails.  A "not a tech term" response for "HDR" is normalized to the empty
string and the awaiting hover completes silently - but the cached empty
string re-enters the request path on the next hover (`!expansion`), and
when that second request is answered with a non-empty expansion the second
hover completes with a shown tooltip for the very same term. -/
theorem c7_counterexample :
    iframeReply (some "not a tech term") = "" ∧
    (runEvents initState
      [PageEvent.hover 1 "HDR",
        PageEvent.result "HDR" (iframeReply (some "not a tech term")),
        PageEvent.hover 2 "HDR",
        PageEvent.result "HDR" "High Dynamic Range: x"]).completed =
      [(1, HoverOutcome.silent), (2, HoverOutcome.shown "High Dynamic Range: x")] := by decide

/-- C7 (amended): a resolution response whose trimmed content, compared
case-insensitively, is exactly "not a tech term" is normalized by the iframe
listener to the empty string; delivering that result caches the empty
string for the term and shows no tooltip (when a hover was awaiting the
term it completes silently), and a later hover that finds the cached empty
string shows no tooltip in that invocation (it either re-enters the request
path without completing or ends in a caught error).  The suppression is not
permanent: the re-entered request can later be answered with a non-empty
expansion and then a tooltip is shown for the term. -/
theorem c7_amended_not_a_tech_term (resp : String)
    (h : toLowerJS (trimJS resp) = "not a tech term") :
    iframeReply (some resp) = "" ∧
    (∀ (s : SysState) (term : String),
      (handleExpansionResult s term (iframeReply (some resp))).expansions.lookup term =
        some "" ∧
      ((handleExpansionResult s term (iframeReply (some resp))).completed = s.completed ∨
        ∃ id, (handleExpansionResult s term (iframeReply (some resp))).completed =
          s.completed ++ [(id, HoverOutcome.silent)])) ∧
    (∀ (s : SysState) (id : Nat) (term : String),
      s.expansions.lookup term = some "" →
      (handleMouseOver s id term).completed = s.completed ∨
      (handleMouseOver s id term).completed = s.completed ++ [(id, HoverOutcome.errorCaught)]) := by
  have h1 : iframeReply (some resp) = "" := by
    have e1 : iframeReply (some resp) =
        (if containsSub notTechPhrase (String.toList (toLowerJS (trimJS resp))) = true
          then trimJS "" else trimJS (trimJS resp)) := rfl
    rw [e1, h,
      if_pos (by decide : containsSub notTechPhrase (String.toList "not a tech term") = true)]
    decide
  refine ⟨h1, fun s term => ⟨?_, ?_⟩, fun s id term hz => ?_⟩
  · rw [h1, expansions_handleExpansionResult, lookup_setAssoc_self]
  · rw [h1]
    unfold handleExpansionResult
    cases hp : s.pendingTerms.lookup term with
    | none => simp [hp]
    | some creator => exact Or.inr ⟨creator, by simp [hp]⟩
  · unfold handleMouseOver
    rw [hz]
    simp only [if_pos rfl]
    unfold handleMiss
    cases hp : s.pendingTerms.lookup term with
    | none => simp [hp]
    | some creator => simp [hp]

theorem c7_amended_not_a_tech_term_witness :
    iframeReply (some "  Not A Tech Term  ") = "" :=
  (c7_amended_not_a_tech_term "  Not A Tech Term  " (by decide)).1

/-! Lookup lemmas for the pending map. -/

theorem lookup_mem {l : List (String × Nat)} {k : String} {v : Nat}
    (h : l.lookup k = some v) : (k, v) ∈ l := by
  induction l with
  | nil => simp [List.lookup] at h
  | cons p rest ih =>
    obtain ⟨k1, v1⟩ := p
    by_cases hk : k = k1
    · subst hk
      simp [List.lookup] at h
      simp [h]
    · have hb : (k == k1) = false := by simp [hk]
      simp [List.lookup, hb] at h
      exact List.mem_cons_of_mem _ (ih h)

theorem lookup_append_left {l : List (String × Nat)} {k : String} {v : Nat}
    (h : l.lookup k = some v) (l2 : List (String × Nat)) : (l ++ l2).lookup k = some v := by
  induction l with
  | nil => simp [List.lookup] at h
  | cons p rest ih =>
    obtain ⟨k1, v1⟩ := p
    cases hk : (k == k1) with
    | true => simp_all [List.lookup]
    | false =>
      simp [List.lookup, hk] at h ⊢
      exact ih h

theorem mem_eraseAssoc {l : List (String × Nat)} {k : String} {p : String × Nat}
    (h : p ∈ eraseAssoc k l) : p ∈ l := by
  induction l with
  | nil => simp [eraseAssoc] at h
  | cons q rest ih =>
    obtain ⟨k1, v1⟩ := q
    by_cases hk : k1 = k
    · simp [eraseAssoc, hk] at h
      exact List.mem_cons_of_mem _ h
    · simp [eraseAssoc, hk] at h
      rcases h with h | h
      · simp [h]
      · exact List.mem_cons_of_mem _ (ih h)

theorem lookup_eraseAssoc_ne {l : List (String × Nat)} {t k : String} (ht : t ≠ k) :
    (eraseAssoc t l).lookup k = l.lookup k := by
  induction l with
  | nil => simp [eraseAssoc]
  | cons q rest ih =>
    obtain ⟨k1, v1⟩ := q
    by_cases hk : k1 = t
    · subst hk
      have hb : (k == k1) = false := by simp [Ne.symm ht]
      simp [eraseAssoc, List.lookup, hb]
    · cases hke : (k == k1) with
      | true => simp [eraseAssoc, hk, List.lookup, hke]
      | false => simp [eraseAssoc, hk, List.lookup, hke, ih]

/-! Shape lemmas for the two handlers. -/

theorem handleMouseOver_cases (s : SysState) (id : Nat) (t : String) :
    (∃ out, handleMouseOver s id t = { s with completed := s.completed ++ [(id, out)] }) ∨
    (s.pendingTerms.lookup t = none ∧
      handleMouseOver s id t =
        { s with outbox := s.outbox ++ [t], pendingTerms := s.pendingTerms ++ [(t, id)] }) := by
  unfold handleMouseOver handleMiss
  cases hl : s.expansions.lookup t with
  | some v =>
    by_cases hv : v = ""
    · cases hp : s.pendingTerms.lookup t with
      | some c => exact Or.inl ⟨HoverOutcome.errorCaught, by simp [hv, hp]⟩
      | none => exact Or.inr ⟨rfl, by simp [hv, hp]⟩
    · exact Or.inl ⟨if trimJS v = "" then HoverOutcome.silent else HoverOutcome.shown v,
        by simp [hv]⟩
  | none =>
    cases hp : s.pendingTerms.lookup t with
    | some c => exact Or.inl ⟨HoverOutcome.errorCaught, by simp [hp]⟩
    | none => exact Or.inr ⟨rfl, by simp [hp]⟩

theorem handleExpansionResult_cases (s : SysState) (t w : String) :
    (s.pendingTerms.lookup t = none ∧
      handleExpansionResult s t w = { s with expansions := setAssoc t w s.expansions }) ∨
    (∃ creator out, s.pendingTerms.lookup t = some creator ∧
      handleExpansionResult s t w =
        { s with
            expansions := setAssoc t w s.expansions,
            completed := s.completed ++ [(creator, out)],
            pendingTerms := eraseAssoc t s.pendingTerms }) := by
  unfold handleExpansionResult
  cases hp : s.pendingTerms.lookup t with
  | none => exact Or.inl ⟨rfl, by simp [hp]⟩
  | some creator =>
    exact Or.inr ⟨creator,
      if w = "" then HoverOutcome.silent
      else if trimJS w = "" then HoverOutcome.silent else HoverOutcome.shown w,
      rfl, by simp [hp]⟩

theorem blockedInv_step (s : SysState) (e : PageEvent) (hI : BlockedInv s)
    (hres : ∀ v, e ≠ PageEvent.result "API" v)
    (hhov : ∀ id t, e = PageEvent.hover id t → id ≠ 1) :
    BlockedInv (stepEvent s e) := by
  obtain ⟨h1, h2, h3⟩ := hI
  cases e with
  | hover id t =>
    have hid : id ≠ 1 := hhov id t rfl
    show BlockedInv (handleMouseOver s id t)
    rcases handleMouseOver_cases s id t with ⟨out, heq⟩ | ⟨hp, heq⟩
    · rw [heq]
      refine ⟨?_, h2, h3⟩
      intro o ho
      rcases List.mem_append.mp ho with ho | ho
      · exact h1 o ho
      · simp at ho
        exact hid ho.1.symm
    · rw [heq]
      refine ⟨h1, lookup_append_left h2 _, ?_⟩
      intro p hp1 hp2
      rcases List.mem_append.mp hp1 with hp1 | hp1
      · exact h3 p hp1 hp2
      · simp at hp1
        rw [hp1] at hp2
        exact absurd hp2 hid
  | result t w =>
    have ht : t ≠ "API" := by
      intro hcon
      exact hres w (by rw [hcon])
    show BlockedInv (handleExpansionResult s t w)
    rcases handleExpansionResult_cases s t w with ⟨hp, heq⟩ | ⟨creator, out, hp, heq⟩
    · rw [heq]
      exact ⟨h1, h2, h3⟩
    · have hc1 : creator ≠ 1 := by
        intro hcon
        exact ht (h3 (t, creator) (lookup_mem hp) hcon)
      rw [heq]
      refine ⟨?_, ?_, ?_⟩
      · intro o ho
        rcases List.mem_append.mp ho with ho | ho
        · exact h1 o ho
        · simp at ho
          exact hc1 ho.1.symm
      · rw [lookup_eraseAssoc_ne ht]
        exact h2
      · intro p hp1 hp2
        exact h3 p (mem_eraseAssoc hp1) hp2

theorem blockedInv_run (evs : List PageEvent) :
    ∀ s : SysState, BlockedInv s →
      (∀ v, PageEvent.result "API" v ∉ evs) →
      (∀ id t, PageEvent.hover id t ∈ evs → id ≠ 1) →
      BlockedInv (runEvents s evs) := by
  induction evs with
  | nil => intro s hI _ _; exact hI
  | cons e rest ih =>
    intro s hI hres hhov
    have hstep : BlockedInv (stepEvent s e) :=
      blockedInv_step s e hI
        (fun v hv => hres v (by rw [hv]; exact List.mem_cons_self _ _))
        (fun id t hv => hhov id t (by rw [hv]; exact List.mem_cons_self _ _))
    exact ih (stepEvent s e) hstep
      (fun v hv => hres v (List.mem_cons_of_mem _ hv))
      (fun id t hv => hhov id t (List.mem_cons_of_mem _ hv))

/-- C4 (divergence witness): the page side has no failure path of its own -
when no EXPANSION_RESULT for the term ever arrives (for instance because the
iframe's contentWindow was absent, so the optional-chained postMessage did
nothing, or the isolated context never answered), the promise created by the
first hover is never resolved.  After hover id 1 on "API", for every further
event sequence containing no result for "API" (and not reusing id 1), hover
1 never completes and its pending entry persists: the awaiter stays blocked
forever instead of resolving to the empty string. -/
theorem c4_awaiter_blocked_forever (evs : List PageEvent)
    (hres : ∀ v, PageEvent.result "API" v ∉ evs)
    (hhov : ∀ id t, PageEvent.hover id t ∈ evs → id ≠ 1) :
    (∀ out, (1, out) ∉
      (runEvents (stepEvent initState (PageEvent.hover 1 "API")) evs).completed) ∧
    (runEvents (stepEvent initState (PageEvent.hover 1 "API")) evs).pendingTerms.lookup
      "API" = some 1 := by
  have h0 : BlockedInv (stepEvent initState (PageEvent.hover 1 "API")) := by
    refine ⟨?_, by decide, ?_⟩
    · intro out hout
      simp [stepEvent, handleMouseOver, handleMiss, initState, List.lookup] at hout
    · intro p hp hp2
      simp [stepEvent, handleMouseOver, handleMiss, initState, List.lookup] at hp
      simp [hp]
  have hrun := blockedInv_run evs _ h0 hres hhov
  exact ⟨hrun.1, hrun.2.1⟩

theorem c4_awaiter_blocked_forever_witness :
    (∀ out, (1, out) ∉
      (runEvents (stepEvent initState (PageEvent.hover 1 "API"))
        [PageEvent.hover 2 "GPU",
          PageEvent.result "GPU" "Graphics Processing Unit: x"]).completed) ∧
    (runEvents (stepEvent initState (PageEvent.hover 1 "API"))
      [PageEvent.hover 2 "GPU",
        PageEvent.result "GPU" "Graphics Processing Unit: x"]).pendingTerms.lookup
      "API" = some 1 :=
  c4_awaiter_blocked_forever _
    (by intro v; simp)
    (by
      intro id t h
      simp only [List.mem_cons, List.not_mem_nil, or_false] at h
      rcases h with h | h
      · injection h with h1 h2
        omega
      · exact absurd h (by simp))

/-! Soundness of the match alternatives: a returned token is an initial
segment of the input of length at least two. -/

theorem stripLead_sound :
    ∀ {a b rest : List Char}, stripLead a b = some rest → b = a ++ rest
  | [], b, rest => by simp [stripLead]
  | _ :: _, [], rest => by simp [stripLead]
  | a :: as, b :: bs, rest => by
    by_cases h : a = b
    · subst h
      intro hs
      simp only [stripLead, beq_self_eq_true, if_pos] at hs
      simpa using stripLead_sound hs
    · have hb : (a == b) = false := by simp [h]
      simp [stripLead, hb]

theorem altUpper_sound {cs t : List Char} (h : altUpper cs = some t) :
    (∃ rest, cs = t ++ rest) ∧ 2 ≤ t.length := by
  unfold altUpper at h
  by_cases h2 : 2 ≤ (cs.takeWhile isUpperA).length
  · simp only [h2, if_pos] at h
    set tailU := cs.dropWhile isUpperA with htail
    have hsplit : cs = cs.takeWhile isUpperA ++ (tailU.takeWhile isUpperDigit ++
        tailU.dropWhile isUpperDigit) := by
      rw [List.takeWhile_append_dropWhile, htail, List.takeWhile_append_dropWhile]
    cases hh : (tailU.dropWhile isUpperDigit).head? with
    | none =>
      rw [hh] at h
      simp only [Option.some.injEq] at h
      subst h
      refine ⟨⟨tailU.dropWhile isUpperDigit, by rw [← List.append_assoc] at hsplit; exact hsplit⟩, ?_⟩
      have := List.length_append (cs.takeWhile isUpperA) (tailU.takeWhile isUpperDigit)
      omega
    | some c =>
      rw [hh] at h
      by_cases hw : isWordChar c = true
      · simp [hw] at h
      · simp only [hw, if_neg, Bool.not_eq_true, Option.some.injEq] at h
        have h' : some (cs.takeWhile isUpperA ++ tailU.takeWhile isUpperDigit) = some t := by
          simpa using h
        simp only [Option.some.injEq] at h'
        subst h'
        refine ⟨⟨tailU.dropWhile isUpperDigit, by rw [← List.append_assoc] at hsplit; exact hsplit⟩, ?_⟩
        have := List.length_append (cs.takeWhile isUpperA) (tailU.takeWhile isUpperDigit)
        omega
  · simp [h2] at h

theorem altLeadLower_sound {lead : Char} {cs t : List Char}
    (h : altLeadLower lead cs = some t) : (∃ rest, cs = t ++ rest) ∧ 2 ≤ t.length := by
  match cs, h with
  | c0 :: c1 :: rest, h =>
    simp only [altLeadLower] at h
    by_cases hlead : (c0 == lead && isUpperA c1) = true
    · rw [if_pos hlead] at h
      by_cases h1 : 1 ≤ (rest.takeWhile isLowerA).length
      · rw [if_pos h1] at h
        have hsplit : rest = rest.takeWhile isLowerA ++ rest.dropWhile isLowerA :=
          (List.takeWhile_append_dropWhile isLowerA rest).symm
        cases hh : (rest.dropWhile isLowerA).head? with
        | none =>
          rw [hh] at h
          simp only [Option.some.injEq] at h
          subst h
          exact ⟨⟨rest.dropWhile isLowerA, by simp [← hsplit]⟩, by simp⟩
        | some c =>
          rw [hh] at h
          by_cases hw : isWordChar c = true
          · simp [hw] at h
          · simp only [hw, if_neg, Bool.not_eq_true, Option.some.injEq] at h
            have h' : c0 :: c1 :: rest.takeWhile isLowerA = t := by simpa using h
            subst h'
            exact ⟨⟨rest.dropWhile isLowerA, by simp [← hsplit]⟩, by simp⟩
      · rw [if_neg h1] at h
        exact absurd h (by simp)
    · rw [if_neg hlead] at h
      exact absurd h (by simp)

theorem findBase_sound :
    ∀ {bs : List (List Char)} {cs b rest : List Char},
      findBase bs cs = some (b, rest) → cs = b ++ rest ∧ b ∈ bs
  | [], cs, b, rest => by simp [findBase]
  | b1 :: bs, cs, b, rest => by
    intro h
    unfold findBase at h
    cases hs : stripLead b1 cs with
    | some rem =>
      rw [hs] at h
      simp only [Option.some.injEq, Prod.mk.injEq] at h
      obtain ⟨hb, hr⟩ := h
      subst hb; subst hr
      exact ⟨stripLead_sound hs, List.mem_cons_self _ _⟩
    | none =>
      rw [hs] at h
      have := findBase_sound h
      exact ⟨this.1, List.mem_cons_of_mem _ this.2⟩

theorem tryCands_sound :
    ∀ {cands : List (List Char)} {base rest t : List Char},
      tryCands base rest cands = some t →
      ∃ sfx rem, t = base ++ sfx ∧ rest = sfx ++ rem
  | [], base, rest, t => by simp [tryCands]
  | sfx :: more, base, rest, t => by
    intro h
    unfold tryCands at h
    cases hs : stripLead sfx rest with
    | some rem =>
      simp only [hs] at h
      cases hl : (base ++ sfx).getLast? with
      | some lastC =>
        simp only [hl] at h
        by_cases hb : boundaryAfter lastC rem = true
        · rw [if_pos hb] at h
          simp only [Option.some.injEq] at h
          exact ⟨sfx, rem, h.symm, stripLead_sound hs⟩
        · rw [if_neg hb] at h
          exact tryCands_sound h
      | none =>
        simp only [hl] at h
        exact tryCands_sound h
    | none =>
      simp only [hs] at h
      exact tryCands_sound h

theorem altFramework_sound {cs t : List Char} (h : altFramework cs = some t) :
    (∃ rest, cs = t ++ rest) ∧ 2 ≤ t.length := by
  unfold altFramework at h
  cases hf : findBase frameworkBases cs with
  | none => rw [hf] at h; exact absurd h (by simp)
  | some p =>
    obtain ⟨base, rest⟩ := p
    rw [hf] at h
    obtain ⟨hcs, hmem⟩ := findBase_sound hf
    obtain ⟨sfx, rem, ht, hrest⟩ := tryCands_sound h
    have hblen : 3 ≤ base.length := by
      have : base ∈ frameworkBases := hmem
      fin_cases this <;> decide
    subst ht
    refine ⟨⟨rem, ?_⟩, by simp; omega⟩
    rw [hcs, hrest, List.append_assoc]

theorem matchCore_sound {cs t : List Char} (h : matchCore cs = some t) :
    (∃ rest, cs = t ++ rest) ∧ 2 ≤ t.length := by
  unfold matchCore at h
  cases h1 : altUpper cs with
  | some u => rw [h1] at h; cases h; exact altUpper_sound h1
  | none =>
    rw [h1] at h
    cases h2 : altLeadLower 'i' cs with
    | some u => rw [h2] at h; cases h; exact altLeadLower_sound h2
    | none =>
      rw [h2] at h
      cases h3 : altLeadLower 'e' cs with
      | some u => rw [h3] at h; cases h; exact altLeadLower_sound h3
      | none => rw [h3] at h; exact altFramework_sound h

theorem matchHere_sound {prev : Bool} {cs t : List Char} (h : matchHere prev cs = some t) :
    (∃ rest, cs = t ++ rest) ∧ 2 ≤ t.length := by
  unfold matchHere at h
  by_cases hp : prev = true
  · simp [hp] at h
  · simp only [Bool.not_eq_true] at hp
    rw [hp] at h
    simp only [Bool.false_eq_true, if_neg, not_false_eq_true] at h
    exact matchCore_sound h

/-! Soundness of the scan loop: every reported match lies inside the text at
its offset, and the matches are disjoint and left-to-right. -/

theorem scanFuel_located :
    ∀ (fuel : Nat) (prev : Bool) (pos : Nat) (cs : List Char),
      ∀ m ∈ scanFuel fuel prev pos cs,
        pos ≤ m.1 ∧ 2 ≤ m.2.length ∧ m.1 + m.2.length ≤ pos + cs.length ∧
          m.2 = (cs.drop (m.1 - pos)).take m.2.length
  | 0, _, _, _ => by simp [scanFuel]
  | _ + 1, _, _, [] => by simp [scanFuel]
  | fuel + 1, prev, pos, c :: rest => by
    intro m hm
    rw [scanFuel] at hm
    cases hmh : matchHere prev (c :: rest) with
    | none =>
      rw [hmh] at hm
      obtain ⟨h1, h2, h3, h4⟩ := scanFuel_located fuel (isWordChar c) (pos + 1) rest m hm
      refine ⟨by omega, h2, by simp only [List.length_cons]; omega, ?_⟩
      have hd : (c :: rest).drop (m.1 - pos) = rest.drop (m.1 - (pos + 1)) := by
        have : m.1 - pos = (m.1 - (pos + 1)) + 1 := by omega
        rw [this]
        rfl
      rw [hd]
      exact h4
    | some tok =>
      rw [hmh] at hm
      obtain ⟨rest2, hpre⟩ := (matchHere_sound hmh).1
      have hlen : 2 ≤ tok.length := (matchHere_sound hmh).2
      have hlen2 : tok.length ≤ (c :: rest).length := by
        rw [hpre]
        simp
      rcases List.mem_cons.mp hm with hm | hm
      · subst hm
        refine ⟨Nat.le_refl _, hlen, ?_, ?_⟩
        · show pos + tok.length ≤ pos + (c :: rest).length
          omega
        · show tok = ((c :: rest).drop (pos - pos)).take tok.length
          simp only [Nat.sub_self, List.drop_zero]
          rw [hpre, List.take_left]
      · obtain ⟨h1, h2, h3, h4⟩ :=
          scanFuel_located fuel (lastIsWord tok) (pos + tok.length)
            ((c :: rest).drop tok.length) m hm
        have hdl : ((c :: rest).drop tok.length).length = (c :: rest).length - tok.length :=
          List.length_drop _ _
        refine ⟨by omega, h2, by omega, ?_⟩
        rw [List.drop_drop] at h4
        have : tok.length + (m.1 - (pos + tok.length)) = m.1 - pos := by omega
        rw [this] at h4
        exact h4

theorem chained_weaken {lb lb2 : Nat} {ms : List (Nat × List Char)}
    (h : Chained lb ms) (hle : lb2 ≤ lb) : Chained lb2 ms := by
  induction h generalizing lb2 with
  | nil lb => exact Chained.nil lb2
  | cons lb p t ms hp hrest ih => exact Chained.cons lb2 p t ms (by omega) hrest

theorem scanFuel_chained :
    ∀ (fuel : Nat) (prev : Bool) (pos : Nat) (cs : List Char),
      Chained pos (scanFuel fuel prev pos cs)
  | 0, _, pos, _ => by rw [scanFuel]; exact Chained.nil pos
  | _ + 1, _, pos, [] => by rw [scanFuel]; exact Chained.nil pos
  | fuel + 1, prev, pos, c :: rest => by
    rw [scanFuel]
    cases hmh : matchHere prev (c :: rest) with
    | none =>
      exact chained_weaken (scanFuel_chained fuel (isWordChar c) (pos + 1) rest) (by omega)
    | some tok =>
      exact Chained.cons pos pos tok _ (Nat.le_refl pos)
        (scanFuel_chained fuel (lastIsWord tok) (pos + tok.length) _)

theorem chained_filter {lb : Nat} {ms : List (Nat × List Char)}
    (q : Nat × List Char → Bool) (h : Chained lb ms) : Chained lb (ms.filter q) := by
  induction h with
  | nil lb => exact Chained.nil lb
  | cons lb p t ms hp hrest ih =>
    by_cases hq : q (p, t) = true
    · simp only [List.filter_cons, hq, if_pos]
      exact Chained.cons lb p t _ hp ih
    · simp only [List.filter_cons, hq, Bool.false_eq_true, if_neg, not_false_eq_true]
      exact chained_weaken ih (by omega)

theorem fragsText_append (a b : List Frag) :
    fragsText (a ++ b) = fragsText a ++ fragsText b := by
  induction a with
  | nil => rfl
  | cons f fs ih =>
    cases f with
    | plain s => simp [fragsText, ih]
    | mark t => simp [fragsText, ih]

theorem fragTerms_append (a b : List Frag) :
    fragTerms (a ++ b) = fragTerms a ++ fragTerms b := by
  induction a with
  | nil => rfl
  | cons f fs ih =>
    cases f with
    | plain s => simp [fragTerms, ih]
    | mark t => simp [fragTerms, ih]

theorem fragsText_fragsLoop (text : List Char) :
    ∀ (ms : List (Nat × List Char)) (lastIndex : Nat),
      Chained lastIndex ms →
      (∀ m ∈ ms, m.1 + m.2.length ≤ text.length ∧ m.2 = (text.drop m.1).take m.2.length) →
      fragsText (fragsLoop text ms lastIndex) = text.drop lastIndex
  | [], lastIndex => by
    intro _ _
    by_cases hl : lastIndex < text.length
    · simp [fragsLoop, hl, fragsText]
    · rw [fragsLoop, if_neg hl, List.drop_eq_nil_of_le (by omega)]
      rfl
  | (i, t) :: ms, lastIndex => by
    intro hch hloc
    cases hch with
    | cons _ _ _ _ hle hch2 =>
      obtain ⟨hext, hslice⟩ := hloc (i, t) (List.mem_cons_self _ _)
      simp only at hext hslice
      have ih := fragsText_fragsLoop text ms (i + t.length) hch2
        (fun m hm => hloc m (List.mem_cons_of_mem _ hm))
      rw [fragsLoop, fragsText_append]
      have hif : fragsText
          (if lastIndex < i then
            [Frag.plain ((text.drop lastIndex).take (i - lastIndex))] else []) =
          (text.drop lastIndex).take (i - lastIndex) := by
        by_cases hli : lastIndex < i
        · simp [hli, fragsText]
        · have : i = lastIndex := by omega
          simp [hli, this, fragsText]
      rw [hif]
      have h1 : (text.drop i).drop t.length = text.drop (i + t.length) := List.drop_drop _ _ _
      have hA : t ++ fragsText (fragsLoop text ms (i + t.length)) = text.drop i := by
        rw [ih]
        conv_rhs => rw [← List.take_append_drop t.length (text.drop i)]
        rw [h1, ← hslice]
      show (text.drop lastIndex).take (i - lastIndex) ++
          (t ++ fragsText (fragsLoop text ms (i + t.length))) = text.drop lastIndex
      rw [hA]
      have h2 : (text.drop lastIndex).drop (i - lastIndex) = text.drop i := by
        rw [List.drop_drop]
        congr 1
        omega
      rw [← h2, List.take_append_drop]

theorem fragTerms_fragsLoop (text : List Char) :
    ∀ (ms : List (Nat × List Char)) (lastIndex : Nat),
      fragTerms (fragsLoop text ms lastIndex) = ms.map Prod.snd
  | [], lastIndex => by
    by_cases hl : lastIndex < text.length <;> simp [fragsLoop, hl, fragTerms]
  | (i, t) :: ms, lastIndex => by
    rw [fragsLoop, fragTerms_append]
    have hif : fragTerms
        (if lastIndex < i then
          [Frag.plain ((text.drop lastIndex).take (i - lastIndex))] else []) = [] := by
      by_cases hli : lastIndex < i <;> simp [hli, fragTerms]
    rw [hif]
    show [] ++ (t :: fragTerms (fragsLoop text ms (i + t.length))) = _
    rw [fragTerms_fragsLoop text ms (i + t.length)]
    rfl

/-- The accepted matches of a text are inside it and chained from offset
zero. -/
theorem acceptedMatches_wf (text : List Char) :
    Chained 0 (acceptedMatches text) ∧
      ∀ m ∈ acceptedMatches text, 2 ≤ m.2.length ∧ m.1 + m.2.length ≤ text.length ∧
        m.2 = (text.drop m.1).take m.2.length := by
  constructor
  · exact chained_filter _ (scanFuel_chained text.length false 0 text)
  · intro m hm
    have hraw : m ∈ rawMatches text := List.mem_of_mem_filter hm
    obtain ⟨h1, h2, h3, h4⟩ := scanFuel_located text.length false 0 text m hraw
    exact ⟨h2, by omega, by simpa using h4⟩

/-- C3 (amended): a node with zero accepted matches is untouched; a node
with accepted matches has its text partitioned into the ordered
left-to-right sequence of plain fragments and one marked span per accepted
match carrying its term (the fragments concatenate back to the whole text,
and the span terms are exactly the accepted matches in order), and the node
is replaced by the container exactly when this partition has at least two
fragments - the sole exception being a text that is exactly one accepted
match, which yields the single fragment `[mark]` and leaves the node
untouched. -/
theorem c3_amended_partition (text : List Char) :
    (acceptedMatches text = [] → processTextNode text = none) ∧
    (acceptedMatches text ≠ [] →
      fragsText (fragsLoop text (acceptedMatches text) 0) = text ∧
      fragTerms (fragsLoop text (acceptedMatches text) 0) =
        (acceptedMatches text).map Prod.snd ∧
      (1 < (fragsLoop text (acceptedMatches text) 0).length →
        processTextNode text = some (fragsLoop text (acceptedMatches text) 0)) ∧
      ((fragsLoop text (acceptedMatches text) 0).length ≤ 1 →
        processTextNode text = none)) := by
  constructor
  · intro hacc
    unfold processTextNode
    by_cases hlen : text.length < 2
    · rw [if_pos hlen]
    · rw [if_neg hlen, hacc]
      have : fragsLoop text [] 0 = [Frag.plain text] := by
        rw [fragsLoop, if_pos (by omega), List.drop_zero]
      rw [this]
      simp
  · intro hacc
    obtain ⟨hch, hloc⟩ := acceptedMatches_wf text
    have hlen2 : 2 ≤ text.length := by
      obtain ⟨m, hm⟩ := List.exists_mem_of_ne_nil _ hacc
      obtain ⟨h2, h3, _⟩ := hloc m hm
      omega
    refine ⟨?_, fragTerms_fragsLoop text _ 0, ?_, ?_⟩
    · have := fragsText_fragsLoop text (acceptedMatches text) 0 hch
        (fun m hm => ⟨(hloc m hm).2.1, (hloc m hm).2.2⟩)
      simpa using this
    · intro hgt
      unfold processTextNode
      rw [if_neg (by omega), if_pos hgt]
    · intro hle
      unfold processTextNode
      rw [if_neg (by omega), if_neg (by omega)]

theorem c3_amended_partition_witness :
    fragsText (fragsLoop (String.toList "The GPU")
      (acceptedMatches (String.toList "The GPU")) 0) = String.toList "The GPU" :=
  ((c3_amended_partition (String.toList "The GPU")).2 (by decide)).1

/-! Shape lemmas for the match alternatives, used for the idempotence
argument. -/

theorem word_of_upper {c : Char} (h : isUpperA c = true) : isWordChar c = true := by
  simp [isWordChar, h]

theorem word_of_upperDigit {c : Char} (h : isUpperDigit c = true) : isWordChar c = true := by
  rcases Bool.or_eq_true_iff.mp h with h | h <;> simp [isWordChar, h]

theorem word_of_lower {c : Char} (h : isLowerA c = true) : isWordChar c = true := by
  simp [isWordChar, h]

theorem lastIsWord_of_all {t : List Char} (hall : ∀ x ∈ t, isWordChar x = true)
    (hne : t ≠ []) : lastIsWord t = true := by
  unfold lastIsWord
  rw [List.getLast?_eq_getLast t hne]
  exact hall _ (List.getLast_mem hne)

theorem altUpper_shape {cs t : List Char} (h : altUpper cs = some t) :
    ∃ rem, cs = t ++ rem ∧ 2 ≤ t.length ∧ (∀ x ∈ t, isWordChar x = true) ∧
      (∀ c, rem.head? = some c → isWordChar c = false) ∧
      (∃ c0 t1, t = c0 :: t1 ∧ isUpperA c0 = true) := by
  unfold altUpper at h
  by_cases h2 : 2 ≤ (cs.takeWhile isUpperA).length
  · simp only [h2, if_pos] at h
    have hsplit : cs = (cs.takeWhile isUpperA ++
        (cs.dropWhile isUpperA).takeWhile isUpperDigit) ++
        (cs.dropWhile isUpperA).dropWhile isUpperDigit := by
      rw [List.append_assoc, List.takeWhile_append_dropWhile, List.takeWhile_append_dropWhile]
    have hword : ∀ x ∈ cs.takeWhile isUpperA ++ (cs.dropWhile isUpperA).takeWhile isUpperDigit,
        isWordChar x = true := by
      intro x hx
      rcases List.mem_append.mp hx with hx | hx
      · exact word_of_upper (List.mem_takeWhile_imp hx)
      · exact word_of_upperDigit (List.mem_takeWhile_imp hx)
    have hhead : ∃ c0 t1,
        cs.takeWhile isUpperA ++ (cs.dropWhile isUpperA).takeWhile isUpperDigit = c0 :: t1 ∧
        isUpperA c0 = true := by
      cases hu : cs.takeWhile isUpperA with
      | nil => rw [hu] at h2; simp at h2
      | cons c0 us1 =>
        refine ⟨c0, us1 ++ (cs.dropWhile isUpperA).takeWhile isUpperDigit, by simp, ?_⟩
        exact List.mem_takeWhile_imp (by rw [hu]; exact List.mem_cons_self _ _)
    have hlen : 2 ≤ (cs.takeWhile isUpperA ++
        (cs.dropWhile isUpperA).takeWhile isUpperDigit).length := by
      rw [List.length_append]
      omega
    cases hh : ((cs.dropWhile isUpperA).dropWhile isUpperDigit).head? with
    | none =>
      rw [hh] at h
      simp only [Option.some.injEq] at h
      subst h
      refine ⟨_, hsplit, hlen, hword, ?_, hhead⟩
      intro c hc
      rw [hh] at hc
      cases hc
    | some c =>
      rw [hh] at h
      by_cases hw : isWordChar c = true
      · simp [hw] at h
      · simp only [hw, if_neg, Bool.not_eq_true, Option.some.injEq] at h
        have h' : cs.takeWhile isUpperA ++ (cs.dropWhile isUpperA).takeWhile isUpperDigit = t := by
          simpa using h
        subst h'
        refine ⟨_, hsplit, hlen, hword, ?_, hhead⟩
        intro c1 hc1
        rw [hh] at hc1
        cases hc1
        simpa using hw
  · simp [h2] at h

theorem altLeadLower_shape {lead : Char} {cs t : List Char}
    (hlead : isWordChar lead = true) (h : altLeadLower lead cs = some t) :
    ∃ rem, cs = t ++ rem ∧ 2 ≤ t.length ∧ (∀ x ∈ t, isWordChar x = true) ∧
      (∀ c, rem.head? = some c → isWordChar c = false) ∧
      t.head? = some lead := by
  match cs, h with
  | c0 :: c1 :: rest, h =>
    simp only [altLeadLower] at h
    by_cases hcond : (c0 == lead && isUpperA c1) = true
    · rw [if_pos hcond] at h
      have hc0 : c0 = lead := by
        have := (Bool.and_eq_true _ _).mp hcond
        exact eq_of_beq this.1
      have hc1 : isUpperA c1 = true := ((Bool.and_eq_true _ _).mp hcond).2
      by_cases h1 : 1 ≤ (rest.takeWhile isLowerA).length
      · rw [if_pos h1] at h
        have hsplit : rest = rest.takeWhile isLowerA ++ rest.dropWhile isLowerA :=
          (List.takeWhile_append_dropWhile isLowerA rest).symm
        have hword : ∀ x ∈ c0 :: c1 :: rest.takeWhile isLowerA, isWordChar x = true := by
          intro x hx
          rcases List.mem_cons.mp hx with hx | hx
          · subst hx; rw [hc0]; exact hlead
          · rcases List.mem_cons.mp hx with hx | hx
            · subst hx; exact word_of_upper hc1
            · exact word_of_lower (List.mem_takeWhile_imp hx)
        cases hh : (rest.dropWhile isLowerA).head? with
        | none =>
          rw [hh] at h
          simp only [Option.some.injEq] at h
          subst h
          refine ⟨rest.dropWhile isLowerA, by simp [← hsplit], by simp, hword, ?_,
            by simp [hc0]⟩
          intro c hc
          rw [hh] at hc
          cases hc
        | some c =>
          rw [hh] at h
          by_cases hw : isWordChar c = true
          · simp [hw] at h
          · simp only [hw, if_neg, Bool.not_eq_true, Option.some.injEq] at h
            have h' : c0 :: c1 :: rest.takeWhile isLowerA = t := by simpa using h
            subst h'
            refine ⟨rest.dropWhile isLowerA, by simp [← hsplit], by simp, hword, ?_,
              by simp [hc0]⟩
            intro c2 hc2
            rw [hh] at hc2
            cases hc2
            simpa using hw
      · rw [if_neg h1] at h
        exact absurd h (by simp)
    · rw [if_neg hcond] at h
      exact absurd h (by simp)

theorem tryCands_shape :
    ∀ {cands : List (List Char)} {base rest t : List Char},
      tryCands base rest cands = some t →
      ∃ sfx rem, sfx ∈ cands ∧ t = base ++ sfx ∧ rest = sfx ++ rem ∧
        ∃ lastC, (base ++ sfx).getLast? = some lastC ∧ boundaryAfter lastC rem = true
  | [], base, rest, t => by simp [tryCands]
  | sfx :: more, base, rest, t => by
    intro h
    unfold tryCands at h
    cases hs : stripLead sfx rest with
    | some rem =>
      simp only [hs] at h
      cases hl : (base ++ sfx).getLast? with
      | some lastC =>
        simp only [hl] at h
        by_cases hb : boundaryAfter lastC rem = true
        · rw [if_pos hb] at h
          simp only [Option.some.injEq] at h
          exact ⟨sfx, rem, List.mem_cons_self _ _, h.symm, stripLead_sound hs, lastC, hl, hb⟩
        · rw [if_neg hb] at h
          obtain ⟨s2, r2, hm, ht, hr, hrest⟩ := tryCands_shape h
          exact ⟨s2, r2, List.mem_cons_of_mem _ hm, ht, hr, hrest⟩
      | none =>
        simp only [hl] at h
        obtain ⟨s2, r2, hm, ht, hr, hrest⟩ := tryCands_shape h
        exact ⟨s2, r2, List.mem_cons_of_mem _ hm, ht, hr, hrest⟩
    | none =>
      simp only [hs] at h
      obtain ⟨s2, r2, hm, ht, hr, hrest⟩ := tryCands_shape h
      exact ⟨s2, r2, List.mem_cons_of_mem _ hm, ht, hr, hrest⟩

theorem altFramework_shape {cs t : List Char} (h : altFramework cs = some t) :
    ∃ base sfx rem, base ∈ frameworkBases ∧ sfx ∈ suffixCands ∧ t = base ++ sfx ∧
      cs = t ++ rem ∧
      ∃ lastC, t.getLast? = some lastC ∧ boundaryAfter lastC rem = true := by
  unfold altFramework at h
  cases hf : findBase frameworkBases cs with
  | none => rw [hf] at h; exact absurd h (by simp)
  | some p =>
    obtain ⟨base, rest⟩ := p
    rw [hf] at h
    obtain ⟨hcs, hmem⟩ := findBase_sound hf
    obtain ⟨sfx, rem, hsm, ht, hrest, lastC, hl, hb⟩ := tryCands_shape h
    subst ht
    exact ⟨base, sfx, rem, hmem, hsm, rfl, by rw [hcs, hrest, List.append_assoc], lastC, hl, hb⟩

/-- Combined facts about a successful match: the token starts with a start
character; when the token ends in a word character the character directly
after the token (if any) is a non-word character; a token consuming the
whole input ends in a word character; and a token ending in a non-word
character is never in the skip set (it is one of the dotted framework
names). -/
theorem matchCore_shape {cs t : List Char} (h : matchCore cs = some t) :
    (∃ c0 t1, t = c0 :: t1 ∧ isStartChar c0 = true) ∧
    (lastIsWord t = true → ∀ c, (cs.drop t.length).head? = some c → isWordChar c = false) ∧
    (t.length = cs.length → lastIsWord t = true) ∧
    (lastIsWord t = false → shouldSkipAcronym (String.mk t) = false) := by
  have hword_case :
      ∀ rem, cs = t ++ rem → 2 ≤ t.length → (∀ x ∈ t, isWordChar x = true) →
      (∀ c, rem.head? = some c → isWordChar c = false) →
      (lastIsWord t = true → ∀ c, (cs.drop t.length).head? = some c → isWordChar c = false) ∧
      (t.length = cs.length → lastIsWord t = true) ∧
      (lastIsWord t = false → shouldSkipAcronym (String.mk t) = false) := by
    intro rem hcs hlen hall hrem
    have hne : t ≠ [] := by
      intro hnil
      rw [hnil] at hlen
      simp at hlen
    have hlw : lastIsWord t = true := lastIsWord_of_all hall hne
    refine ⟨?_, fun _ => hlw, ?_⟩
    · intro _ c hc
      rw [hcs, List.drop_left] at hc
      exact hrem c hc
    · intro hfalse
      rw [hlw] at hfalse
      cases hfalse
  unfold matchCore at h
  cases h1 : altUpper cs with
  | some u =>
    rw [h1] at h
    cases h
    obtain ⟨rem, hcs, hlen, hall, hrem, c0, t1, ht, hc0⟩ := altUpper_shape h1
    refine ⟨⟨c0, t1, ht, by simp [isStartChar, hc0]⟩, ?_⟩
    obtain ⟨a, b, c⟩ := hword_case rem hcs hlen hall hrem
    exact ⟨a, b, c⟩
  | none =>
    rw [h1] at h
    cases h2 : altLeadLower 'i' cs with
    | some u =>
      rw [h2] at h
      cases h
      obtain ⟨rem, hcs, hlen, hall, hrem, hhead⟩ := altLeadLower_shape (by decide) h2
      refine ⟨?_, ?_⟩
      · cases ht : t with
        | nil => rw [ht] at hhead; cases hhead
        | cons c0 t1 =>
          rw [ht] at hhead
          simp only [List.head?_cons, Option.some.injEq] at hhead
          exact ⟨c0, t1, rfl, by rw [hhead]; decide⟩
      · obtain ⟨a, b, c⟩ := hword_case rem hcs hlen hall hrem
        exact ⟨a, b, c⟩
    | none =>
      rw [h2] at h
      cases h3 : altLeadLower 'e' cs with
      | some u =>
        rw [h3] at h
        cases h
        obtain ⟨rem, hcs, hlen, hall, hrem, hhead⟩ := altLeadLower_shape (by decide) h3
        refine ⟨?_, ?_⟩
        · cases ht : t with
          | nil => rw [ht] at hhead; cases hhead
          | cons c0 t1 =>
            rw [ht] at hhead
            simp only [List.head?_cons, Option.some.injEq] at hhead
            exact ⟨c0, t1, rfl, by rw [hhead]; decide⟩
        · obtain ⟨a, b, c⟩ := hword_case rem hcs hlen hall hrem
          exact ⟨a, b, c⟩
      | none =>
        rw [h3] at h
        obtain ⟨base, sfx, rem, hbase, hsfx, ht, hcs, lastC, hlast, hb⟩ := altFramework_shape h
        have hlw : lastIsWord t = isWordChar lastC := by
          unfold lastIsWord
          rw [hlast]
        refine ⟨?_, ?_, ?_, ?_⟩
        · subst ht
          fin_cases hbase <;>
            exact ⟨_, _, rfl, by decide⟩
        · intro hw c hc
          rw [hcs, List.drop_left] at hc
          unfold boundaryAfter at hb
          cases hr : rem with
          | nil => rw [hr] at hc; cases hc
          | cons r0 r1 =>
            rw [hr] at hc hb
            simp only [List.head?_cons, Option.some.injEq] at hc
            subst hc
            rw [hlw] at hw
            rw [hw] at hb
            simpa using hb
        · intro hlen2
          have hrem : rem = [] := by
            have := congrArg List.length hcs
            simp at this
            have : rem.length = 0 := by omega
            exact List.length_eq_zero.mp this
          rw [hrem] at hb
          unfold boundaryAfter at hb
          rw [hlw]
          exact hb
        · intro hw
          subst ht
          revert hw
          fin_cases hbase <;> fin_cases hsfx <;> decide
  
/-! Locality of the matcher: appending input after a non-word stopper
character does not change a match attempt, except for the dotted framework
forms analysed separately. -/

theorem takeWhile_frame (p : Char → Bool) {z : Char} (hz : p z = false) :
    ∀ (w rest : List Char), (w ++ z :: rest).takeWhile p = (w ++ [z]).takeWhile p
  | [], rest => by simp [List.takeWhile_cons, hz]
  | c :: w1, rest => by
    by_cases hc : p c = true
    · simp only [List.cons_append, List.takeWhile_cons, hc, if_pos]
      rw [takeWhile_frame p hz w1 rest]
    · simp [List.takeWhile_cons, hc]

theorem dropWhile_frame (p : Char → Bool) {z : Char} (hz : p z = false) :
    ∀ (w rest : List Char), (w ++ z :: rest).dropWhile p = (w ++ [z]).dropWhile p ++ rest
  | [], rest => by simp [List.dropWhile_cons, hz]
  | c :: w1, rest => by
    by_cases hc : p c = true
    · simp only [List.cons_append, List.dropWhile_cons, hc, if_pos]
      exact dropWhile_frame p hz w1 rest
    · simp [List.dropWhile_cons, hc]

theorem dropWhile_concat (p : Char → Bool) {z : Char} (hz : p z = false) :
    ∀ w : List Char, (w ++ [z]).dropWhile p = w.dropWhile p ++ [z]
  | [] => by simp [List.dropWhile_cons, hz]
  | c :: w1 => by
    by_cases hc : p c = true
    · simp only [List.cons_append, List.dropWhile_cons, hc, if_pos]
      exact dropWhile_concat p hz w1
    · simp [List.dropWhile_cons, hc]

theorem dropWhile_concat_ne_nil (p : Char → Bool) {z : Char} (hz : p z = false)
    (w : List Char) : (w ++ [z]).dropWhile p ≠ [] := by
  rw [dropWhile_concat p hz w]
  simp

theorem head?_append_left {l : List Char} (l2 : List Char) (h : l ≠ []) :
    (l ++ l2).head? = l.head? := by
  cases l with
  | nil => cases h rfl
  | cons a l1 => rfl

theorem upper_of_word_false {z : Char} (hz : isWordChar z = false) : isUpperA z = false := by
  cases hq : isUpperA z
  · rfl
  · rw [word_of_upper hq] at hz; cases hz

theorem upperDigit_of_word_false {z : Char} (hz : isWordChar z = false) :
    isUpperDigit z = false := by
  cases hq : isUpperDigit z
  · rfl
  · rw [word_of_upperDigit hq] at hz; cases hz

theorem lower_of_word_false {z : Char} (hz : isWordChar z = false) : isLowerA z = false := by
  cases hq : isLowerA z
  · rfl
  · rw [word_of_lower hq] at hz; cases hz

theorem altUpper_frame {z : Char} (hz : isWordChar z = false) (w rest : List Char) :
    altUpper (w ++ z :: rest) = altUpper (w ++ [z]) := by
  have hzu : isUpperA z = false := upper_of_word_false hz
  have hzd : isUpperDigit z = false := upperDigit_of_word_false hz
  simp only [altUpper]
  rw [takeWhile_frame isUpperA hzu w rest, dropWhile_frame isUpperA hzu w rest,
    dropWhile_concat isUpperA hzu w, List.append_assoc, List.singleton_append,
    takeWhile_frame isUpperDigit hzd (w.dropWhile isUpperA) rest,
    dropWhile_frame isUpperDigit hzd (w.dropWhile isUpperA) rest,
    head?_append_left rest (dropWhile_concat_ne_nil isUpperDigit hzd (w.dropWhile isUpperA))]

theorem altLeadLower_frame {z : Char} (hz : isWordChar z = false) (lead : Char)
    (hlead : isWordChar lead = true) (w rest : List Char) :
    altLeadLower lead (w ++ z :: rest) = altLeadLower lead (w ++ [z]) := by
  have hzl : isLowerA z = false := lower_of_word_false hz
  match w with
  | [] =>
    have hzlead : (z == lead) = false := by
      cases hq : z == lead
      · rfl
      · rw [eq_of_beq hq] at hz
        rw [hlead] at hz
        cases hz
    cases rest with
    | nil => rfl
    | cons r0 r1 =>
      show altLeadLower lead (z :: r0 :: r1) = altLeadLower lead [z]
      simp [altLeadLower, hzlead]
  | [c0] =>
    show altLeadLower lead (c0 :: z :: rest) = altLeadLower lead [c0, z]
    have hzu : isUpperA z = false := upper_of_word_false hz
    simp [altLeadLower, hzu]
  | c0 :: c1 :: w2 =>
    show altLeadLower lead (c0 :: c1 :: (w2 ++ z :: rest)) =
      altLeadLower lead (c0 :: c1 :: (w2 ++ [z]))
    simp only [altLeadLower]
    rw [takeWhile_frame isLowerA hzl w2 rest, dropWhile_frame isLowerA hzl w2 rest,
      head?_append_left rest (dropWhile_concat_ne_nil isLowerA hzl w2)]

theorem stripLead_frame {z : Char} :
    ∀ (sfx u rest2 : List Char),
      ((sfx.drop u.length).head? = some z → False) →
      stripLead sfx (u ++ z :: rest2) = (stripLead sfx (u ++ [z])).map (fun r => r ++ rest2)
  | [], u, rest2 => by
    intro _
    simp [stripLead]
  | s0 :: sfx1, [], rest2 => by
    intro hnc
    have hs0 : (s0 == z) = false := by
      cases hq : s0 == z
      · rfl
      · exact absurd (by rw [eq_of_beq hq]; rfl) hnc
    simp [stripLead, hs0]
  | s0 :: sfx1, u0 :: u1, rest2 => by
    intro hnc
    show stripLead (s0 :: sfx1) (u0 :: (u1 ++ z :: rest2)) =
      (stripLead (s0 :: sfx1) (u0 :: (u1 ++ [z]))).map (fun r => r ++ rest2)
    by_cases hc : (s0 == u0) = true
    · simp only [stripLead, hc, if_pos]
      exact stripLead_frame sfx1 u1 rest2 hnc
    · simp [stripLead, hc]

theorem stripLead_frame_ne_nil {z : Char} {sfx u r : List Char}
    (hnc : (sfx.drop u.length).head? = some z → False)
    (h : stripLead sfx (u ++ [z]) = some r) : r ≠ [] := by
  intro hr
  subst hr
  have hsd := stripLead_sound h
  apply hnc
  have hsfx : sfx = u ++ [z] := by simpa using hsd.symm
  rw [hsfx, List.drop_left]
  rfl

theorem findBase_frame {z : Char} (hz : isWordChar z = false) :
    ∀ (bs : List (List Char)), (∀ b ∈ bs, ∀ x ∈ b, isWordChar x = true) →
      ∀ (u rest2 : List Char),
      findBase bs (u ++ z :: rest2) =
        (findBase bs (u ++ [z])).map (fun p => (p.1, p.2 ++ rest2))
  | [], _, u, rest2 => by simp [findBase]
  | b :: bs, hword, u, rest2 => by
    have hnc : (b.drop u.length).head? = some z → False := by
      intro hh
      have hzb : z ∈ b := List.mem_of_mem_drop (List.mem_of_mem_head? hh)
      rw [hword b (List.mem_cons_self _ _) z hzb] at hz
      cases hz
    unfold findBase
    rw [stripLead_frame b u rest2 hnc]
    cases hs : stripLead b (u ++ [z]) with
    | some rem => simp
    | none =>
      simp only [Option.map_none']
      exact findBase_frame hz bs (fun b2 hb => hword b2 (List.mem_cons_of_mem _ hb)) u rest2

theorem boundaryAfter_append_left (c : Char) {l : List Char} (l2 : List Char) (h : l ≠ []) :
    boundaryAfter c (l ++ l2) = boundaryAfter c l := by
  cases l with
  | nil => cases h rfl
  | cons a l1 => rfl

theorem tryCands_align {z : Char} (base : List Char) :
    ∀ (cands : List (List Char)) (u rest2 : List Char),
      (∀ sfx ∈ cands, (sfx.drop u.length).head? = some z → False) →
      tryCands base (u ++ z :: rest2) cands = tryCands base (u ++ [z]) cands
  | [], u, rest2 => by intro _; rfl
  | sfx :: more, u, rest2 => by
    intro hnc
    have hx : (sfx.drop u.length).head? = some z → False := hnc sfx (List.mem_cons_self _ _)
    have hmore : ∀ s2 ∈ more, (s2.drop u.length).head? = some z → False :=
      fun s2 hs2 => hnc s2 (List.mem_cons_of_mem _ hs2)
    unfold tryCands
    rw [stripLead_frame sfx u rest2 hx]
    cases hs : stripLead sfx (u ++ [z]) with
    | none =>
      simp only [Option.map_none']
      exact tryCands_align base more u rest2 hmore
    | some r =>
      have hrne : r ≠ [] := stripLead_frame_ne_nil hx hs
      simp only [Option.map_some']
      cases hl : (base ++ sfx).getLast? with
      | none => exact tryCands_align base more u rest2 hmore
      | some lastC =>
        show (if boundaryAfter lastC (r ++ rest2) = true then some (base ++ sfx)
            else tryCands base (u ++ z :: rest2) more) =
          (if boundaryAfter lastC r = true then some (base ++ sfx)
            else tryCands base (u ++ [z]) more)
        rw [boundaryAfter_append_left lastC rest2 hrne]
        by_cases hb : boundaryAfter lastC r = true
        · rw [if_pos hb, if_pos hb]
        · rw [if_neg hb, if_neg hb]
          exact tryCands_align base more u rest2 hmore

theorem word_of_start {c : Char} (h : isStartChar c = true) : isWordChar c = true := by
  unfold isStartChar at h
  rcases Bool.or_eq_true_iff.mp h with h | h
  · rcases Bool.or_eq_true_iff.mp h with h | h
    · exact word_of_upper h
    · rw [eq_of_beq h]; rfl
  · rw [eq_of_beq h]; rfl

theorem tryCands_cross {base : List Char} (hbase : base ∈ frameworkBases)
    {r0 : Char} (r1 : List Char) (hr0 : isStartChar r0 = true) :
    ∃ t, tryCands base ('.' :: r0 :: r1) suffixCands = some t ∧
      shouldSkipAcronym (String.mk t) = false := by
  have hw0 : isWordChar r0 = true := word_of_start hr0
  have hj : ('j' == r0) = false := by
    cases hq : 'j' == r0
    · rfl
    · rw [← eq_of_beq hq] at hr0
      cases hr0
  have hdotskip : shouldSkipAcronym (String.mk (base ++ ['.'])) = false := by
    fin_cases hbase <;> decide
  have hbdot : boundaryAfter '.' (r0 :: r1) = true := by
    show (isWordChar '.' != isWordChar r0) = true
    rw [hw0]
    decide
  have hlastdot : (base ++ ['.']).getLast? = some '.' := List.getLast?_concat base
  have hcand3 : tryCands base ('.' :: r0 :: r1) [['.'], ['j', 's'], ['J', 'S'], []] =
      some (base ++ ['.']) := by
    rw [tryCands]
    simp only [show stripLead ['.'] ('.' :: r0 :: r1) = some (r0 :: r1) from by
      simp [stripLead], hlastdot, hbdot]
    simp
  have hstep1 : tryCands base ('.' :: r0 :: r1) suffixCands =
      tryCands base ('.' :: r0 :: r1) [['.', 'J', 'S'], ['.'], ['j', 's'], ['J', 'S'], []] := by
    rw [show (suffixCands : List (List Char)) =
      ['.', 'j', 's'] :: [['.', 'J', 'S'], ['.'], ['j', 's'], ['J', 'S'], []] from rfl]
    rw [tryCands]
    simp only [show stripLead ['.', 'j', 's'] ('.' :: r0 :: r1) = none from by
      simp [stripLead, hj]]
  cases hJ : ('J' == r0) with
  | false =>
    have hstep2 : tryCands base ('.' :: r0 :: r1)
        [['.', 'J', 'S'], ['.'], ['j', 's'], ['J', 'S'], []] =
        tryCands base ('.' :: r0 :: r1) [['.'], ['j', 's'], ['J', 'S'], []] := by
      rw [tryCands]
      simp only [show stripLead ['.', 'J', 'S'] ('.' :: r0 :: r1) = none from by
        simp [stripLead, hJ]]
    exact ⟨base ++ ['.'], by rw [hstep1, hstep2, hcand3], hdotskip⟩
  | true =>
    cases r1 with
    | nil =>
      have hstep2 : tryCands base ('.' :: r0 :: ([] : List Char))
          [['.', 'J', 'S'], ['.'], ['j', 's'], ['J', 'S'], []] =
          tryCands base ('.' :: r0 :: ([] : List Char)) [['.'], ['j', 's'], ['J', 'S'], []] := by
        rw [tryCands]
        simp only [show stripLead ['.', 'J', 'S'] ('.' :: r0 :: ([] : List Char)) = none from by
          simp [stripLead, hJ]]
      exact ⟨base ++ ['.'], by rw [hstep1, hstep2, hcand3], hdotskip⟩
    | cons r2 r3 =>
      cases hS : ('S' == r2) with
      | false =>
        have hstep2 : tryCands base ('.' :: r0 :: r2 :: r3)
            [['.', 'J', 'S'], ['.'], ['j', 's'], ['J', 'S'], []] =
            tryCands base ('.' :: r0 :: r2 :: r3) [['.'], ['j', 's'], ['J', 'S'], []] := by
          rw [tryCands]
          simp only [show stripLead ['.', 'J', 'S'] ('.' :: r0 :: r2 :: r3) = none from by
            simp [stripLead, hJ, hS]]
        exact ⟨base ++ ['.'], by rw [hstep1, hstep2, hcand3], hdotskip⟩
      | true =>
        have hstrip : stripLead ['.', 'J', 'S'] ('.' :: r0 :: r2 :: r3) = some r3 := by
          simp [stripLead, hJ, hS]
        have hlastJS : (base ++ ['.', 'J', 'S']).getLast? = some 'S' := by
          rw [List.getLast?_append_of_ne_nil base (by simp :
            (['.', 'J', 'S'] : List Char) ≠ [])]
          rfl
        cases hb : boundaryAfter 'S' r3 with
        | true =>
          have hJSskip : shouldSkipAcronym (String.mk (base ++ ['.', 'J', 'S'])) = false := by
            fin_cases hbase <;> decide
          refine ⟨base ++ ['.', 'J', 'S'], ?_, hJSskip⟩
          rw [hstep1, tryCands]
          simp only [hstrip, hlastJS, hb]
          simp
        | false =>
          have hstep2 : tryCands base ('.' :: r0 :: r2 :: r3)
              [['.', 'J', 'S'], ['.'], ['j', 's'], ['J', 'S'], []] =
              tryCands base ('.' :: r0 :: r2 :: r3) [['.'], ['j', 's'], ['J', 'S'], []] := by
            rw [tryCands]
            simp only [hstrip, hlastJS, hb]
            simp
          exact ⟨base ++ ['.'], by rw [hstep1, hstep2, hcand3], hdotskip⟩

theorem altFramework_frame {z : Char} (hz : isWordChar z = false) (w : List Char)
    {r0 : Char} {r1 : List Char} (hr0 : isStartChar r0 = true) :
    altFramework (w ++ z :: r0 :: r1) = altFramework (w ++ [z]) ∨
    (∃ t, altFramework (w ++ z :: r0 :: r1) = some t ∧
      shouldSkipAcronym (String.mk t) = false) := by
  have hbasesword : ∀ b ∈ frameworkBases, ∀ x ∈ b, isWordChar x = true := by
    intro b hb
    fin_cases hb <;> (intro x hx; fin_cases hx <;> decide)
  unfold altFramework
  rw [findBase_frame hz frameworkBases hbasesword w (r0 :: r1)]
  cases hf : findBase frameworkBases (w ++ [z]) with
  | none =>
    left
    rfl
  | some p =>
    obtain ⟨base, rest⟩ := p
    simp only [Option.map_some']
    obtain ⟨hsd, hbase⟩ := findBase_sound hf
    have hrne : rest ≠ [] := by
      intro hcon
      rw [hcon, List.append_nil] at hsd
      have hzmem : z ∈ base := by
        rw [← hsd]
        simp
      rw [hbasesword base hbase z hzmem] at hz
      cases hz
    have hlast : rest.getLast hrne = z := by
      have h1 : (base ++ rest).getLast? = rest.getLast? :=
        List.getLast?_append_of_ne_nil base hrne
      rw [← hsd, List.getLast?_concat, List.getLast?_eq_getLast rest hrne] at h1
      exact (Option.some.inj h1).symm
    have hrest_decomp : rest = rest.dropLast ++ [z] := by
      conv_lhs => rw [← List.dropLast_append_getLast hrne]
      rw [hlast]
    by_cases hcross : rest.dropLast = [] ∧ z = '.'
    · obtain ⟨hd, hzdot⟩ := hcross
      have hrest2 : rest = ['.'] := by
        rw [hrest_decomp, hd, hzdot]
        rfl
      rw [hrest2]
      right
      exact tryCands_cross hbase r1 hr0
    · left
      have hword_contra : ∀ l : List Char, (∀ x ∈ l, isWordChar x = true) →
          ∀ k : Nat, (l.drop k).head? = some z → False := by
        intro l hl k hh
        have hmem := hl z (List.mem_of_mem_drop (List.mem_of_mem_head? hh))
        rw [hmem] at hz
        cases hz
      have hnc : ∀ sfx ∈ suffixCands,
          (sfx.drop rest.dropLast.length).head? = some z → False := by
        intro sfx hs hh
        cases hu : rest.dropLast with
        | nil =>
          rw [hu] at hh
          simp only [List.length_nil, List.drop_zero] at hh
          fin_cases hs
          · have hzd : z = '.' := by
              simp only [List.head?_cons, Option.some.injEq] at hh
              exact hh.symm
            exact hcross ⟨hu, hzd⟩
          · have hzd : z = '.' := by
              simp only [List.head?_cons, Option.some.injEq] at hh
              exact hh.symm
            exact hcross ⟨hu, hzd⟩
          · have hzd : z = '.' := by
              simp only [List.head?_cons, Option.some.injEq] at hh
              exact hh.symm
            exact hcross ⟨hu, hzd⟩
          · exact hword_contra ['j', 's'] (by decide) 0 (by simpa using hh)
          · exact hword_contra ['J', 'S'] (by decide) 0 (by simpa using hh)
          · simp at hh
        | cons u0 u1 =>
          rw [hu] at hh
          simp only [List.length_cons] at hh
          fin_cases hs
          · exact hword_contra ['j', 's'] (by decide) u1.length (by simpa using hh)
          · exact hword_contra ['J', 'S'] (by decide) u1.length (by simpa using hh)
          · simp at hh
          · exact hword_contra ['s'] (by decide) u1.length (by simpa using hh)
          · exact hword_contra ['S'] (by decide) u1.length (by simpa using hh)
          · simp at hh
      have halign := tryCands_align base suffixCands rest.dropLast (r0 :: r1) hnc
      calc tryCands base (rest ++ r0 :: r1) suffixCands
          = tryCands base (rest.dropLast ++ z :: r0 :: r1) suffixCands := by
            conv_lhs => rw [hrest_decomp]
            rw [List.append_assoc]
            rfl
        _ = tryCands base (rest.dropLast ++ [z]) suffixCands := halign
        _ = tryCands base rest suffixCands := by rw [← hrest_decomp]

theorem matchCore_frame {z : Char} (hz : isWordChar z = false) (w : List Char)
    {r0 : Char} {r1 : List Char} (hr0 : isStartChar r0 = true) :
    matchCore (w ++ z :: r0 :: r1) = matchCore (w ++ [z]) ∨
    (∃ t, matchCore (w ++ z :: r0 :: r1) = some t ∧
      shouldSkipAcronym (String.mk t) = false) := by
  unfold matchCore
  rw [altUpper_frame hz w (r0 :: r1), altLeadLower_frame hz 'i' (by decide) w (r0 :: r1),
    altLeadLower_frame hz 'e' (by decide) w (r0 :: r1)]
  cases h1 : altUpper (w ++ [z]) with
  | some t => left; rfl
  | none =>
    cases h2 : altLeadLower 'i' (w ++ [z]) with
    | some t => left; rfl
    | none =>
      cases h3 : altLeadLower 'e' (w ++ [z]) with
      | some t => left; rfl
      | none =>
        rcases altFramework_frame hz w hr0 with hfr | ⟨t, hfr, hskip⟩
        · left
          rw [hfr]
        · right
          exact ⟨t, hfr, hskip⟩

theorem matchHere_true (cs : List Char) : matchHere true cs = none := rfl

theorem matchHere_false (cs : List Char) : matchHere false cs = matchCore cs := rfl

theorem scanFuel_nil : ∀ (fuel : Nat) (prev : Bool) (pos : Nat), scanFuel fuel prev pos [] = []
  | 0, _, _ => rfl
  | _ + 1, _, _ => rfl

theorem scanFuel_irrel :
    ∀ (f1 : Nat) (prev : Bool) (pos : Nat) (cs : List Char) (f2 : Nat),
      cs.length ≤ f1 → cs.length ≤ f2 →
      scanFuel f1 prev pos cs = scanFuel f2 prev pos cs
  | f1, prev, pos, [], f2 => by
    intro _ _
    rw [scanFuel_nil, scanFuel_nil]
  | 0, prev, pos, c :: rest, f2 => by
    intro h _
    simp at h
  | g1 + 1, prev, pos, c :: rest, 0 => by
    intro _ h
    simp at h
  | g1 + 1, prev, pos, c :: rest, g2 + 1 => by
    intro h1 h2
    simp only [List.length_cons] at h1 h2
    cases hm : matchHere prev (c :: rest) with
    | some tok =>
      obtain ⟨⟨r2, hpre⟩, hlen⟩ := matchHere_sound hm
      have hllen : tok.length ≤ (c :: rest).length := by
        rw [hpre]
        simp
      have hd : ((c :: rest).drop tok.length).length = (c :: rest).length - tok.length :=
        List.length_drop _ _
      simp only [List.length_cons] at hllen hd
      simp only [scanFuel, hm]
      exact congrArg _ (scanFuel_irrel g1 (lastIsWord tok) (pos + tok.length)
        ((c :: rest).drop tok.length) g2 (by omega) (by omega))
    | none =>
      simp only [scanFuel, hm]
      exact scanFuel_irrel g1 (isWordChar c) (pos + 1) rest g2 (by omega) (by omega)

/-- Stepping facts for peeling one character off the stopper-terminated
part. -/
theorem stopper_tail {c : Char} {u1 w : List Char} {z : Char}
    (huwz : c :: u1 = w ++ [z]) (hz : isWordChar z = false) :
    (u1 = [] → isWordChar c = false) ∧
    (u1 = [] ∨ ∃ w1 z1, u1 = w1 ++ [z1] ∧ isWordChar z1 = false) := by
  cases w with
  | nil =>
    simp only [List.nil_append, List.cons.injEq] at huwz
    obtain ⟨hc, hu1⟩ := huwz
    subst hc
    exact ⟨fun _ => hz, Or.inl hu1⟩
  | cons w0 w1 =>
    simp only [List.cons_append, List.cons.injEq] at huwz
    obtain ⟨hc, hu1⟩ := huwz
    constructor
    · intro h0
      rw [h0] at hu1
      exact absurd hu1.symm (by simp)
    · exact Or.inr ⟨w1, z, hu1, hz⟩

/-- The central simulation: scanning the stopper-terminated part `u`
followed by more input behaves like scanning `u` alone followed by scanning
the remainder - unless the combined input produces an accepted (never
skipped) match starting inside `u`, which is exactly the dotted-framework
boundary case. -/
theorem scan_frame :
    ∀ (fuel2 fuel1 : Nat) (prev : Bool) (pos : Nat) (u rest : List Char),
      u.length + rest.length ≤ fuel1 → u.length ≤ fuel2 →
      (u = [] → prev = false) →
      (u = [] ∨ ∃ w z, u = w ++ [z] ∧ isWordChar z = false) →
      (rest = [] ∨ ∃ r0 r1, rest = r0 :: r1 ∧ isStartChar r0 = true) →
      scanFuel fuel1 prev pos (u ++ rest) =
        scanFuel fuel2 prev pos u ++ scanFuel rest.length false (pos + u.length) rest ∨
      (∃ p t, (p, t) ∈ scanFuel fuel1 prev pos (u ++ rest) ∧ p < pos + u.length ∧
        shouldSkipAcronym (String.mk t) = false)
  | fuel2, fuel1, prev, pos, [], rest => by
    intro hf1 hf2 hpu hu hr
    left
    rw [List.nil_append, scanFuel_nil]
    simp only [List.nil_append, List.length_nil, Nat.add_zero]
    rw [hpu rfl]
    exact scanFuel_irrel fuel1 false pos rest rest.length (by simpa using hf1) (Nat.le_refl _)
  | 0, fuel1, prev, pos, c :: u1, rest => by
    intro hf1 hf2 hpu hu hr
    simp at hf2
  | fuel2 + 1, fuel1, prev, pos, c :: u1, rest => by
    intro hf1 hf2 hpu hu hr
    rcases hu with hu | ⟨w, z, huwz, hz⟩
    · exact absurd hu (by simp)
    obtain ⟨hpu1, hu1⟩ := stopper_tail huwz hz
    simp only [List.length_cons] at hf1 hf2
    obtain ⟨g1, rfl⟩ : ∃ g1, fuel1 = g1 + 1 := ⟨fuel1 - 1, by omega⟩
    have hnone_step :
        scanFuel (g1 + 1) prev pos ((c :: u1) ++ rest) =
          scanFuel g1 (isWordChar c) (pos + 1) (u1 ++ rest) →
        scanFuel (fuel2 + 1) prev pos (c :: u1) =
          scanFuel fuel2 (isWordChar c) (pos + 1) u1 →
        scanFuel (g1 + 1) prev pos ((c :: u1) ++ rest) =
          scanFuel (fuel2 + 1) prev pos (c :: u1) ++
            scanFuel rest.length false (pos + (u1.length + 1)) rest ∨
        (∃ p t, (p, t) ∈ scanFuel (g1 + 1) prev pos ((c :: u1) ++ rest) ∧
          p < pos + (u1.length + 1) ∧ shouldSkipAcronym (String.mk t) = false) := by
      intro hfull hstd
      rcases scan_frame fuel2 g1 (isWordChar c) (pos + 1) u1 rest (by omega) (by omega)
        hpu1 hu1 hr with hmain | ⟨p, t, hmem, hplt, hskip⟩
      · left
        rw [hfull, hstd, hmain]
        have hpos : pos + 1 + u1.length = pos + (u1.length + 1) := by omega
        rw [hpos]
      · right
        refine ⟨p, t, ?_, by omega, hskip⟩
        rw [hfull]
        exact hmem
    by_cases hprev : prev = true
    · subst hprev
      exact hnone_step
        (by rw [List.cons_append, scanFuel, matchHere_true])
        (by rw [scanFuel, matchHere_true])
    · have hprev' : prev = false := by
        revert hprev
        cases prev <;> simp
      subst hprev'
      rcases hr with hrnil | ⟨r0, r1, hrr, hr0⟩
      · subst hrnil
        left
        rw [List.append_nil, scanFuel_nil, List.append_nil]
        exact scanFuel_irrel (g1 + 1) false pos (c :: u1) (fuel2 + 1)
          (by simp; omega) (by simp; omega)
      · subst hrr
        have hlist : (c :: u1) ++ r0 :: r1 = w ++ z :: r0 :: r1 := by
          rw [huwz, List.append_assoc]
          rfl
        rcases matchCore_frame hz w hr0 with heq | ⟨t, hsome, hskip⟩
        · have heq2 : matchCore ((c :: u1) ++ r0 :: r1) = matchCore (c :: u1) := by
            rw [hlist, heq, ← huwz]
          cases hm : matchCore (c :: u1) with
          | none =>
            refine hnone_step ?_ ?_
            · rw [List.cons_append, scanFuel]
              rw [show matchHere false (c :: (u1 ++ r0 :: r1)) = none from by
                rw [matchHere_false, ← List.cons_append, heq2, hm]]
            · rw [scanFuel]
              rw [show matchHere false (c :: u1) = none from by rw [matchHere_false, hm]]
          | some tok =>
            obtain ⟨⟨u2, hpre⟩, htlen⟩ := matchCore_sound hm
            have htlt : tok.length < (c :: u1).length := by
              rcases Nat.lt_or_ge tok.length (c :: u1).length with h | h
              · exact h
              · exfalso
                have hle : tok.length ≤ (c :: u1).length := by
                  rw [hpre]
                  simp
                have heqlen : tok.length = (c :: u1).length := by omega
                have hu2 : u2 = [] := by
                  have := congrArg List.length hpre
                  simp only [List.length_append] at this
                  rw [← List.length_eq_zero]
                  omega
                rw [hu2, List.append_nil] at hpre
                have hlw : lastIsWord tok = true :=
                  (matchCore_shape hm).2.2.1 heqlen
                rw [← hpre, huwz] at hlw
                unfold lastIsWord at hlw
                simp only [List.getLast?_concat] at hlw
                rw [hz] at hlw
                cases hlw
            have htlew : tok.length ≤ w.length := by
              have hlen2 := congrArg List.length huwz
              have htlt2 := htlt
              simp only [List.length_cons, List.length_append, List.length_nil,
                List.length_singleton] at hlen2 htlt2
              omega
            have hdrop_u : (c :: u1).drop tok.length = w.drop tok.length ++ [z] := by
              rw [huwz]
              exact List.drop_append_of_le_length htlew
            have hdrop_full2 : (c :: (u1 ++ r0 :: r1)).drop tok.length =
                ((c :: u1).drop tok.length) ++ r0 :: r1 := by
              rw [← List.cons_append]
              exact List.drop_append_of_le_length (le_of_lt htlt)
            have hfull_eq : scanFuel (g1 + 1) false pos ((c :: u1) ++ r0 :: r1) =
                (pos, tok) :: scanFuel g1 (lastIsWord tok) (pos + tok.length)
                  (((c :: u1).drop tok.length) ++ r0 :: r1) := by
              rw [List.cons_append, scanFuel]
              simp only [show matchHere false (c :: (u1 ++ r0 :: r1)) = some tok from by
                rw [matchHere_false, ← List.cons_append, heq2, hm], hdrop_full2]
            have hstd_eq : scanFuel (fuel2 + 1) false pos (c :: u1) =
                (pos, tok) :: scanFuel fuel2 (lastIsWord tok) (pos + tok.length)
                  ((c :: u1).drop tok.length) := by
              rw [scanFuel]
              simp only [show matchHere false (c :: u1) = some tok from by
                rw [matchHere_false, hm]]
            have hlen_drop : ((c :: u1).drop tok.length).length =
                (c :: u1).length - tok.length := List.length_drop _ _
            simp only [List.length_cons] at hlen_drop htlt
            rcases scan_frame fuel2 g1 (lastIsWord tok) (pos + tok.length)
              ((c :: u1).drop tok.length) (r0 :: r1)
              (by simp only [List.length_cons] at hf1 ⊢; omega)
              (by omega)
              (by
                intro hcon
                rw [hdrop_u] at hcon
                exact absurd hcon (by simp))
              (Or.inr ⟨w.drop tok.length, z, hdrop_u, hz⟩)
              (Or.inr ⟨r0, r1, rfl, hr0⟩) with hmain | ⟨p, t, hmem, hplt, hskip⟩
            · left
              rw [hfull_eq, hstd_eq, hmain]
              have hpos : pos + tok.length + ((c :: u1).drop tok.length).length =
                  pos + (c :: u1).length := by
                simp only [List.length_cons]
                omega
              rw [hpos, List.cons_append]
            · right
              refine ⟨p, t, ?_, ?_, hskip⟩
              · rw [hfull_eq]
                exact List.mem_cons_of_mem _ hmem
              · simp only [List.length_cons]
                omega
        · right
          have hfull_eq : scanFuel (g1 + 1) false pos ((c :: u1) ++ r0 :: r1) =
              (pos, t) :: scanFuel g1 (lastIsWord t) (pos + t.length)
                (((c :: u1) ++ r0 :: r1).drop t.length) := by
            rw [List.cons_append, scanFuel]
            rw [show matchHere false (c :: (u1 ++ r0 :: r1)) = some t from by
              rw [matchHere_false, ← List.cons_append, hlist, hsome]]
          refine ⟨pos, t, ?_, by simp, hskip⟩
          rw [hfull_eq]
          exact List.mem_cons_self _ _

/-! Bridging lemmas: a non-word head makes the attempt fail regardless of
the previous-character flag, token lists do not depend on the position
argument, and the accepted filter decomposes. -/

theorem beq_lit_false {c lit : Char} (hlit : isWordChar lit = true)
    (hc : isWordChar c = false) : (c == lit) = false := by
  cases hq : c == lit
  · rfl
  · rw [eq_of_beq hq, hlit] at hc
    cases hc

theorem beq_false_of_word_mismatch {a c : Char} (ha : isWordChar a = true)
    (hc : isWordChar c = false) : (a == c) = false := by
  cases hq : a == c
  · rfl
  · rw [← eq_of_beq hq, ha] at hc
    cases hc

theorem matchCore_none_of_nonword_head {c : Char} (hc : isWordChar c = false)
    (cs : List Char) : matchCore (c :: cs) = none := by
  have h1 : altUpper (c :: cs) = none := by
    unfold altUpper
    simp [List.takeWhile_cons, upper_of_word_false hc]
  have h2 : ∀ lead : Char, isWordChar lead = true → altLeadLower lead (c :: cs) = none := by
    intro lead hlead
    cases cs with
    | nil => rfl
    | cons c1 rest =>
      simp [altLeadLower, beq_lit_false hlead hc]
  have h4 : altFramework (c :: cs) = none := by
    unfold altFramework
    have hfb : findBase frameworkBases (c :: cs) = none := by
      simp [findBase, frameworkBases, stripLead,
        beq_false_of_word_mismatch (a := 'N') (by decide) hc,
        beq_false_of_word_mismatch (a := 'W') (by decide) hc,
        beq_false_of_word_mismatch (a := 'R') (by decide) hc,
        beq_false_of_word_mismatch (a := 'V') (by decide) hc]
    rw [hfb]
  unfold matchCore
  rw [h1, h2 'i' (by decide), h2 'e' (by decide), h4]

theorem scan_prev_bridge :
    ∀ (fuel : Nat) (prev : Bool) (pos : Nat) (c : Char) (cs : List Char),
      isWordChar c = false →
      scanFuel fuel prev pos (c :: cs) = scanFuel fuel false pos (c :: cs)
  | 0, _, _, _, _ => by intro _; rfl
  | fuel + 1, prev, pos, c, cs => by
    intro hc
    cases prev with
    | false => rfl
    | true =>
      rw [scanFuel, scanFuel, matchHere_true, matchHere_false,
        matchCore_none_of_nonword_head hc cs]

theorem scanFuel_tokens_shift :
    ∀ (fuel : Nat) (prev : Bool) (pos1 pos2 : Nat) (cs : List Char),
      (scanFuel fuel prev pos1 cs).map Prod.snd = (scanFuel fuel prev pos2 cs).map Prod.snd
  | 0, _, _, _, _ => rfl
  | fuel + 1, prev, pos1, pos2, [] => rfl
  | fuel + 1, prev, pos1, pos2, c :: rest => by
    cases hm : matchHere prev (c :: rest) with
    | some tok =>
      simp only [scanFuel, hm, List.map_cons]
      rw [scanFuel_tokens_shift fuel (lastIsWord tok) (pos1 + tok.length) (pos2 + tok.length)]
    | none =>
      simp only [scanFuel, hm]
      exact scanFuel_tokens_shift fuel (isWordChar c) (pos1 + 1) (pos2 + 1) rest

theorem acceptedOf_eq_nil_iff {l : List (Nat × List Char)} :
    acceptedOf l = [] ↔ ∀ m ∈ l, shouldSkipAcronym (String.mk m.2) = true := by
  unfold acceptedOf
  rw [List.filter_eq_nil_iff]
  constructor
  · intro h m hm
    have := h m hm
    simpa using this
  · intro h m hm
    simp [h m hm]

theorem acceptedOf_scan_pos_invariant {fuel : Nat} {prev : Bool} {pos1 pos2 : Nat}
    {cs : List Char} (h : acceptedOf (scanFuel fuel prev pos1 cs) = []) :
    acceptedOf (scanFuel fuel prev pos2 cs) = [] := by
  rw [acceptedOf_eq_nil_iff] at h ⊢
  intro m hm
  have hmem : m.2 ∈ (scanFuel fuel prev pos2 cs).map Prod.snd := List.mem_map_of_mem _ hm
  rw [← scanFuel_tokens_shift fuel prev pos1 pos2 cs] at hmem
  obtain ⟨m1, hm1, hsnd⟩ := List.mem_map.mp hmem
  rw [← hsnd]
  exact h m1 hm1

theorem filter_eq_cons_decomp {α : Type} {l : List α} {q : α → Bool} {x : α} {l2 : List α}
    (h : l.filter q = x :: l2) :
    ∃ L1 L2, l = L1 ++ x :: L2 ∧ (∀ y ∈ L1, q y = false) ∧ L2.filter q = l2 := by
  induction l with
  | nil => simp at h
  | cons y l1 ih =>
    cases hq : q y with
    | true =>
      rw [List.filter_cons, if_pos (by rw [hq])] at h
      injection h with hy hl
      refine ⟨[], l1, by rw [hy]; simp, by simp, hl⟩
    | false =>
      rw [List.filter_cons] at h
      simp only [hq] at h
      obtain ⟨L1, L2, hdec, hall, hfl⟩ := ih (by simpa using h)
      refine ⟨y :: L1, L2, by rw [hdec]; rfl, ?_, hfl⟩
      intro y1 hy1
      rcases List.mem_cons.mp hy1 with hy1 | hy1
      · rw [hy1]; exact hq
      · exact hall y1 hy1

theorem drop_cons_of_pos {c : Char} {cs : List Char} {k : Nat} (hk : 1 ≤ k) :
    (c :: cs).drop k = cs.drop (k - 1) := by
  obtain ⟨k1, rfl⟩ : ∃ k1, k = k1 + 1 := ⟨k - 1, by omega⟩
  simp

theorem take_one_of_head {l : List Char} {c : Char} (h : l.head? = some c) :
    l.take 1 = [c] := by
  cases l <;> simp_all

theorem head?_take {l : List Char} {k : Nat} (hk : 1 ≤ k) :
    (l.take k).head? = l.head? := by
  obtain ⟨k1, rfl⟩ : ∃ k1, k = k1 + 1 := ⟨k - 1, by omega⟩
  cases l <;> simp

/-- Structure of a scan run at its first reported match: the match starts at
or after the current position, its extent stays inside the text, the attempt
at its start succeeds from a cleared previous-word flag, the character just
before it (if the match is not at the resume point) is a non-word character,
and the remaining reported matches are exactly the scan of the rest of the
text after the match. -/
theorem scanFuel_head_struct :
    ∀ (fuel : Nat) (prev : Bool) (pos : Nat) (cs : List Char) (p : Nat) (t : List Char)
      (L2 : List (Nat × List Char)),
      cs.length ≤ fuel →
      scanFuel fuel prev pos cs = (p, t) :: L2 →
      pos ≤ p ∧ p + t.length - pos ≤ cs.length ∧
      matchHere false (cs.drop (p - pos)) = some t ∧
      (p = pos ∧ prev = false ∨
        pos < p ∧ ∃ cpre, (cs.drop (p - pos - 1)).head? = some cpre ∧ isWordChar cpre = false) ∧
      L2 = scanFuel (cs.drop (p + t.length - pos)).length (lastIsWord t) (p + t.length)
        (cs.drop (p + t.length - pos))
  | 0, prev, pos, cs, p, t, L2 => by
    intro hf h
    rw [show scanFuel 0 prev pos cs = [] from rfl] at h
    cases h
  | fuel + 1, prev, pos, [], p, t, L2 => by
    intro hf h
    rw [scanFuel_nil] at h
    cases h
  | fuel + 1, prev, pos, c :: rest, p, t, L2 => by
    intro hf h
    cases hm : matchHere prev (c :: rest) with
    | some tok =>
      simp only [scanFuel, hm] at h
      injection h with h1 h2
      injection h1 with hp ht
      subst hp
      subst ht
      have hprev : prev = false := by
        cases prev
        · rfl
        · rw [matchHere_true] at hm
          cases hm
      subst hprev
      obtain ⟨⟨rem, hrem⟩, hlen2⟩ := matchHere_sound hm
      refine ⟨le_refl pos, ?_, ?_, Or.inl ⟨rfl, rfl⟩, ?_⟩
      · have htle : tok.length ≤ (c :: rest).length := by
          rw [hrem]
          simp
        omega
      · simp only [Nat.sub_self, List.drop_zero]
        exact hm
      · rw [show pos + tok.length - pos = tok.length from by omega]
        rw [← h2]
        have hdl : ((c :: rest).drop tok.length).length ≤ fuel := by
          simp only [List.length_drop, List.length_cons]
          simp only [List.length_cons] at hf
          omega
        exact scanFuel_irrel fuel (lastIsWord tok) (pos + tok.length)
          ((c :: rest).drop tok.length) (((c :: rest).drop tok.length).length)
          hdl (le_refl _)
    | none =>
      simp only [scanFuel, hm] at h
      obtain ⟨h1, h2, h3, h4, h5⟩ :=
        scanFuel_head_struct fuel (isWordChar c) (pos + 1) rest p t L2
          (by simp only [List.length_cons] at hf; omega) h
      have hp1 : pos + 1 ≤ p := h1
      refine ⟨by omega, ?_, ?_, ?_, ?_⟩
      · simp only [List.length_cons]
        omega
      · rw [show (c :: rest).drop (p - pos) = rest.drop (p - (pos + 1)) from by
          rw [drop_cons_of_pos (by omega)]
          congr 1]
        exact h3
      · rcases h4 with ⟨hpp, hcw⟩ | ⟨hlt, cpre, hhd, hcw⟩
        · refine Or.inr ⟨by omega, c, ?_, hcw⟩
          rw [show p - pos - 1 = 0 from by omega]
          simp
        · refine Or.inr ⟨by omega, cpre, ?_, hcw⟩
          rw [drop_cons_of_pos (show 1 ≤ p - pos - 1 from by omega)]
          rw [show p - pos - 1 - 1 = p - (pos + 1) - 1 from by omega]
          exact hhd
      · rw [show (c :: rest).drop (p + t.length - pos) =
            rest.drop (p + t.length - (pos + 1)) from by
          rw [drop_cons_of_pos (by omega)]
          congr 1]
        exact h5

/-- Structure of a scan run at its first accepted match: if the reported
matches split as a skipped prefix followed by an accepted match, then the
accepted match satisfies the same positional structure as a first match
(the skipped prefix cannot restore the previous-word flag at an accepted
match, because a skipped token always ends in a word character). -/
theorem scanFuel_run_to_accepted :
    ∀ (L1 : List (Nat × List Char)) (fuel : Nat) (prev : Bool) (pos : Nat) (cs : List Char)
      (b : Nat) (t : List Char) (L2 : List (Nat × List Char)),
      cs.length ≤ fuel →
      scanFuel fuel prev pos cs = L1 ++ (b, t) :: L2 →
      (∀ x ∈ L1, shouldSkipAcronym (String.mk x.2) = true) →
      pos ≤ b ∧ b + t.length - pos ≤ cs.length ∧
      matchHere false (cs.drop (b - pos)) = some t ∧
      (b = pos ∧ prev = false ∨
        pos < b ∧ ∃ cpre, (cs.drop (b - pos - 1)).head? = some cpre ∧ isWordChar cpre = false) ∧
      L2 = scanFuel (cs.drop (b + t.length - pos)).length (lastIsWord t) (b + t.length)
        (cs.drop (b + t.length - pos))
  | [], fuel, prev, pos, cs, b, t, L2 => by
    intro hf h hskip
    exact scanFuel_head_struct fuel prev pos cs b t L2 hf h
  | (p0, t0) :: L1, fuel, prev, pos, cs, b, t, L2 => by
    intro hf h hskip
    obtain ⟨h1, h2, h3, h4, h5⟩ :=
      scanFuel_head_struct fuel prev pos cs p0 t0 (L1 ++ (b, t) :: L2) hf h
    obtain ⟨⟨rem0, hrem0⟩, hlen0⟩ := matchHere_sound h3
    obtain ⟨g1, g2, g3, g4, g5⟩ :=
      scanFuel_run_to_accepted L1 ((cs.drop (p0 + t0.length - pos)).length) (lastIsWord t0)
        (p0 + t0.length) (cs.drop (p0 + t0.length - pos)) b t L2 (le_refl _) h5.symm
        (fun x hx => hskip x (List.mem_cons_of_mem _ hx))
    have hddlen : (cs.drop (p0 + t0.length - pos)).length = cs.length - (p0 + t0.length - pos) :=
      List.length_drop _ _
    refine ⟨by omega, by omega, ?_, ?_, ?_⟩
    · rw [show cs.drop (b - pos) =
          (cs.drop (p0 + t0.length - pos)).drop (b - (p0 + t0.length)) from by
        rw [List.drop_drop]
        congr 1
        omega]
      exact g3
    · rcases g4 with ⟨hbp, hlw0⟩ | ⟨hlt, cpre, hhd, hcw⟩
      · exfalso
        have hmc : matchCore (cs.drop (p0 - pos)) = some t0 := by
          rw [← matchHere_false]
          exact h3
        have hnoskip := (matchCore_shape hmc).2.2.2 hlw0
        have hskip0 := hskip (p0, t0) (List.mem_cons_self _ _)
        rw [hskip0] at hnoskip
        cases hnoskip
      · refine Or.inr ⟨by omega, cpre, ?_, hcw⟩
        rw [show cs.drop (b - pos - 1) =
            (cs.drop (p0 + t0.length - pos)).drop (b - (p0 + t0.length) - 1) from by
          rw [List.drop_drop]
          congr 1
          omega]
        exact hhd
    · rw [show cs.drop (b + t.length - pos) =
          (cs.drop (p0 + t0.length - pos)).drop (b + t.length - (p0 + t0.length)) from by
        rw [List.drop_drop]
        congr 1
        omega]
      exact g5

/-- Every plain fragment emitted by the fragment loop rescans to an empty
accepted-match list.  The invariant carried down the loop: `a` is the resume
offset, the scan of the remaining text from `a` (with the loop's
previous-word flag) filters to exactly the remaining accepted matches, and a
raised previous-word flag implies the next character is a non-word character
(so the flag is irrelevant to a standalone rescan). -/
theorem fragsLoop_plain_pure (text : List Char) (A : List (Nat × List Char)) :
    ∀ (a : Nat) (prev : Bool),
      a ≤ text.length →
      (prev = true → ∀ c0, (text.drop a).head? = some c0 → isWordChar c0 = false) →
      acceptedOf (scanFuel (text.drop a).length prev a (text.drop a)) = A →
      ∀ f, Frag.plain f ∈ fragsLoop text A a → acceptedOf (rawMatches f) = [] := by
  induction A with
  | nil =>
    intro a prev ha hprev hscan f hf
    by_cases hlt : a < text.length
    · simp only [fragsLoop, if_pos hlt] at hf
      have heq1 := List.mem_singleton.mp hf
      injection heq1 with hfe
      subst hfe
      cases hcs : text.drop a with
      | nil => rfl
      | cons c0 f1 =>
        have hb : scanFuel (text.drop a).length prev a (text.drop a) =
            scanFuel (text.drop a).length false a (text.drop a) := by
          cases hp : prev with
          | false => rfl
          | true =>
            rw [hcs]
            exact scan_prev_bridge (c0 :: f1).length true a c0 f1
              (hprev hp c0 (by rw [hcs]; rfl))
        rw [hb] at hscan
        rw [hcs] at hscan
        exact @acceptedOf_scan_pos_invariant (c0 :: f1).length false a 0 (c0 :: f1) hscan
    · simp only [fragsLoop, if_neg hlt] at hf
      exact absurd hf (List.not_mem_nil _)
  | cons x A2 ih =>
    obtain ⟨b, t⟩ := x
    intro a prev ha hprev hscan f hf
    simp only [acceptedOf] at hscan
    obtain ⟨L1, L2, hdec, hallskip, hfl2⟩ := filter_eq_cons_decomp hscan
    have hallskip' : ∀ y ∈ L1, shouldSkipAcronym (String.mk y.2) = true := by
      intro y hy
      have h1 := hallskip y hy
      simpa using h1
    obtain ⟨g1, g2, g3, g4, g5⟩ :=
      scanFuel_run_to_accepted L1 (text.drop a).length prev a (text.drop a) b t L2
        (le_refl _) hdec hallskip'
    have hmc : matchCore ((text.drop a).drop (b - a)) = some t := by
      rw [← matchHere_false]
      exact g3
    obtain ⟨⟨rem, hrem⟩, hlen2⟩ := matchHere_sound g3
    have hblen : b + t.length ≤ text.length := by
      rw [List.length_drop] at g2
      omega
    simp only [fragsLoop] at hf
    rcases List.mem_append.mp hf with hfL | hfR
    · by_cases hab : a < b
      · rw [if_pos hab] at hfL
        have heq1 := List.mem_singleton.mp hfL
        injection heq1 with hfe
        subst hfe
        have hulen : ((text.drop a).take (b - a)).length = b - a := by
          rw [List.length_take, List.length_drop]
          omega
        rcases g4 with ⟨hba, hpf⟩ | ⟨hltb, cpre, hhd, hcprew⟩
        · exfalso
          omega
        have hu_split : (text.drop a).take (b - a) =
            (text.drop a).take (b - a - 1) ++ [cpre] := by
          conv_lhs => rw [show b - a = (b - a - 1) + 1 from by omega]
          rw [List.take_add]
          congr 1
          exact take_one_of_head hhd
        obtain ⟨c0, t1, ht_eq, hc0start⟩ := (matchCore_shape hmc).1
        have hrest_eq : (text.drop a).drop (b - a) = c0 :: (t1 ++ rem) := by
          rw [hrem, ht_eq, List.cons_append]
        have hsplit : (text.drop a).take (b - a) ++ (text.drop a).drop (b - a) = text.drop a :=
          List.take_append_drop _ _
        have hlensum : ((text.drop a).take (b - a)).length +
            ((text.drop a).drop (b - a)).length = (text.drop a).length := by
          rw [← List.length_append, hsplit]
        have hdec2 : scanFuel (text.drop a).length prev a
            ((text.drop a).take (b - a) ++ (text.drop a).drop (b - a)) = L1 ++ (b, t) :: L2 := by
          rw [hsplit]
          exact hdec
        have hpune : (text.drop a).take (b - a) = [] → prev = false := by
          intro h0
          exfalso
          rw [h0] at hulen
          simp at hulen
          omega
        rcases scan_frame (b - a) (text.drop a).length prev a
            ((text.drop a).take (b - a)) ((text.drop a).drop (b - a))
            (le_of_eq hlensum) (le_of_eq hulen) hpune
            (Or.inr ⟨(text.drop a).take (b - a - 1), cpre, hu_split, hcprew⟩)
            (Or.inr ⟨c0, t1 ++ rem, hrest_eq, hc0start⟩) with hmain | hcross
        · have hstd : ∀ x ∈ scanFuel (b - a) prev a ((text.drop a).take (b - a)),
              shouldSkipAcronym (String.mk x.2) = true := by
            intro x hx
            have hxloc := scanFuel_located (b - a) prev a ((text.drop a).take (b - a)) x hx
            have hxlt : x.1 < b := by
              have hb1 := hxloc.2.2.1
              rw [hulen] at hb1
              have hb2 := hxloc.2.1
              omega
            have hmemall : x ∈ L1 ++ (b, t) :: L2 := by
              rw [← hdec2, hmain]
              exact List.mem_append_left _ hx
            rcases List.mem_append.mp hmemall with h1 | h2
            · exact hallskip' x h1
            · rcases List.mem_cons.mp h2 with heq2 | h3
              · exfalso
                have hxb : x.1 = b := congrArg Prod.fst heq2
                omega
              · exfalso
                have hloc2 := scanFuel_located ((text.drop a).drop (b + t.length - a)).length
                  (lastIsWord t) (b + t.length) ((text.drop a).drop (b + t.length - a)) x
                  (g5 ▸ h3)
                have hge : b + t.length ≤ x.1 := hloc2.1
                omega
          have hpure0 : acceptedOf (scanFuel (b - a) prev a ((text.drop a).take (b - a))) = [] :=
            acceptedOf_eq_nil_iff.mpr hstd
          have hpure_false :
              acceptedOf (scanFuel (b - a) false a ((text.drop a).take (b - a))) = [] := by
            cases hp : prev with
            | false =>
              rw [hp] at hpure0
              exact hpure0
            | true =>
              cases hu0 : (text.drop a).take (b - a) with
              | nil => simp [scanFuel_nil, acceptedOf]
              | cons d0 d1 =>
                have hd0 : (text.drop a).head? = some d0 := by
                  rw [← head?_take (show 1 ≤ b - a from by omega), hu0]
                  rfl
                have hw0 := hprev hp d0 hd0
                rw [hp, hu0] at hpure0
                rw [← scan_prev_bridge (b - a) true a d0 d1 hw0]
                exact hpure0
          have hpure1 : acceptedOf (scanFuel (b - a) false 0 ((text.drop a).take (b - a))) = [] :=
            @acceptedOf_scan_pos_invariant (b - a) false a 0 ((text.drop a).take (b - a))
              hpure_false
          show acceptedOf (scanFuel ((text.drop a).take (b - a)).length false 0
              ((text.drop a).take (b - a))) = []
          rw [hulen]
          exact hpure1
        · obtain ⟨p, t2, hmem, hplt, hnsk⟩ := hcross
          rw [hdec2] at hmem
          rw [hulen] at hplt
          exfalso
          rcases List.mem_append.mp hmem with h1 | h2
          · have hskt : shouldSkipAcronym (String.mk t2) = true := hallskip' (p, t2) h1
            rw [hskt] at hnsk
            cases hnsk
          · rcases List.mem_cons.mp h2 with heq2 | h3
            · have hpb : p = b := congrArg Prod.fst heq2
              omega
            · have hloc2 := scanFuel_located ((text.drop a).drop (b + t.length - a)).length
                (lastIsWord t) (b + t.length) ((text.drop a).drop (b + t.length - a)) (p, t2)
                (g5 ▸ h3)
              have hge : b + t.length ≤ p := hloc2.1
              omega
      · rw [if_neg hab] at hfL
        exact absurd hfL (List.not_mem_nil _)
    · rcases List.mem_cons.mp hfR with heq | htail
      · simp at heq
      · refine ih (b + t.length) (lastIsWord t) hblen ?_ ?_ f htail
        · intro hlw c2 hc2
          apply (matchCore_shape hmc).2.1 hlw c2
          rw [show ((text.drop a).drop (b - a)).drop t.length = text.drop (b + t.length) from by
            rw [List.drop_drop, List.drop_drop]
            congr 1
            omega]
          exact hc2
        · have hA2 : acceptedOf L2 = A2 := hfl2
          rw [g5] at hA2
          rw [show (text.drop a).drop (b + t.length - a) = text.drop (b + t.length) from by
            rw [List.drop_drop]
            congr 1
            omega] at hA2
          exact hA2

/-- Zeta-expanded form of `processTextNode`, convenient for case splits. -/
theorem processTextNode_eq (text : List Char) :
    processTextNode text =
      if text.length < 2 then none
      else if 1 < (fragsLoop text (acceptedMatches text) 0).length
      then some (fragsLoop text (acceptedMatches text) 0) else none := rfl

/-- A text whose rescan accepts no match is left untouched by
`processTextNode` (its partition is at most one lone plain fragment). -/
theorem processTextNode_none_of_pure (f : List Char)
    (h : acceptedOf (rawMatches f) = []) : processTextNode f = none := by
  rw [processTextNode_eq]
  by_cases hlen : f.length < 2
  · rw [if_pos hlen]
  · rw [if_neg hlen]
    have hacc : acceptedMatches f = [] := h
    rw [hacc]
    have hfl : fragsLoop f [] 0 = [Frag.plain (f.drop 0)] := by
      simp only [fragsLoop]
      rw [if_pos (show 0 < f.length from by omega)]
    rw [hfl]
    simp

/-- Every plain fragment of a `processTextNode` replacement rescans to an
empty accepted-match list. -/
theorem processTextNode_frags_pure (text : List Char) (frags : List Frag)
    (h : processTextNode text = some frags) :
    ∀ f, Frag.plain f ∈ frags → acceptedOf (rawMatches f) = [] := by
  rw [processTextNode_eq] at h
  by_cases hlen : text.length < 2
  · rw [if_pos hlen] at h
    cases h
  · rw [if_neg hlen] at h
    by_cases hfr : 1 < (fragsLoop text (acceptedMatches text) 0).length
    · rw [if_pos hfr] at h
      injection h with h1
      subst h1
      intro f hf
      refine fragsLoop_plain_pure text (acceptedMatches text) 0 false (Nat.zero_le _)
        (by intro hc; simp at hc) ?_ f hf
      simp only [List.drop_zero]
      rfl
    · rw [if_neg hfr] at h
      cases h

/-- Reprocessing the rendered fragment list of a replacement changes
nothing: plain fragments rescan to no accepted match, and the marked spans
carry the marker class, so the walker filter rejects their text. -/
theorem processChildren_fragsToDomList (frags : List Frag)
    (hpure : ∀ f, Frag.plain f ∈ frags → acceptedOf (rawMatches f) = []) :
    processChildren false (fragsToDomList frags) = fragsToDomList frags := by
  induction frags with
  | nil => rfl
  | cons fr rest ih =>
    cases fr with
    | plain f =>
      have hnone := processTextNode_none_of_pure f (hpure f (List.mem_cons_self _ _))
      simp only [fragsToDomList, processChildren, fragToDom]
      rw [ih (fun g hg => hpure g (List.mem_cons_of_mem _ hg))]
      simp [processNode, hnone]
    | mark t =>
      simp only [fragsToDomList, processChildren, fragToDom]
      rw [ih (fun g hg => hpure g (List.mem_cons_of_mem _ hg))]
      have hspan : processNode false
          (Dom.elem "span" [markerClass] (some (String.mk t))
            (DomList.cons (Dom.textNode t) DomList.nil)) =
          Dom.elem "span" [markerClass] (some (String.mk t))
            (DomList.cons (Dom.textNode t) DomList.nil) := by
        simp only [processNode]
        rw [show rejectsText "span" [markerClass] = true from rfl]
        simp [processChildren, processNode]
      rw [hspan]

mutual
/-- A second traversal over an already-processed node is the identity on the
result of the first, for any fixed verdict of the walker filter at the
parent. -/
theorem processNode_idem : ∀ (pr : Bool) (d : Dom),
    processNode pr (processNode pr d) = processNode pr d
  | pr, Dom.textNode s => by
    cases pr with
    | true => rfl
    | false =>
      cases hpt : processTextNode s with
      | none =>
        have h1 : processNode false (Dom.textNode s) = Dom.textNode s := by
          simp [processNode, hpt]
        rw [h1, h1]
      | some frags =>
        have h1 : processNode false (Dom.textNode s) =
            Dom.elem "span" [] none (fragsToDomList frags) := by
          simp [processNode, hpt]
        rw [h1]
        have h2 : processNode false (Dom.elem "span" [] none (fragsToDomList frags)) =
            Dom.elem "span" [] none
              (processChildren (rejectsText "span" []) (fragsToDomList frags)) := by
          simp [processNode]
        rw [h2, show rejectsText "span" ([] : List String) = false from rfl,
          processChildren_fragsToDomList frags (processTextNode_frags_pure s frags hpt)]
  | pr, Dom.elem tag classes dat ch => by
    have h1 : processNode pr (Dom.elem tag classes dat ch) =
        Dom.elem tag classes dat (processChildren (rejectsText tag classes) ch) := by
      simp [processNode]
    rw [h1]
    have h2 : processNode pr (Dom.elem tag classes dat
        (processChildren (rejectsText tag classes) ch)) =
        Dom.elem tag classes dat (processChildren (rejectsText tag classes)
          (processChildren (rejectsText tag classes) ch)) := by
      simp [processNode]
    rw [h2, processChildren_idem (rejectsText tag classes) ch]
theorem processChildren_idem : ∀ (pr : Bool) (ds : DomList),
    processChildren pr (processChildren pr ds) = processChildren pr ds
  | _, DomList.nil => rfl
  | pr, DomList.cons d ds => by
    simp only [processChildren]
    rw [processNode_idem pr d, processChildren_idem pr ds]
end

/-- C8: segmentation is idempotent.  Running the `processPage` traversal a
second time over an already-processed, unchanged subtree returns it verbatim
and in particular marks zero additional spans; the walker filter rejects
text inside the already-marked spans (they carry the marker class) and
inside every opaque `script`/`style`/`code`/`pre` element. -/
theorem c8_segmenter_idempotent :
    (∀ d : Dom, processPage (processPage d) = processPage d) ∧
    (∀ d : Dom, countMarkedD (processPage (processPage d)) = countMarkedD (processPage d)) ∧
    rejectsText "span" [markerClass] = true ∧
    (opaqueTags.all (fun tag => rejectsText tag []) = true) := by
  have hpp : ∀ d : Dom, processPage (processPage d) = processPage d := by
    intro d
    cases d with
    | textNode s => rfl
    | elem tag classes dat ch =>
      have h1 : processPage (Dom.elem tag classes dat ch) =
          Dom.elem tag classes dat (processChildren (rejectsText tag classes) ch) := by
        simp [processPage]
      rw [h1]
      have h2 : processPage (Dom.elem tag classes dat
          (processChildren (rejectsText tag classes) ch)) =
          Dom.elem tag classes dat (processChildren (rejectsText tag classes)
            (processChildren (rejectsText tag classes) ch)) := by
        simp [processPage]
      rw [h2, processChildren_idem (rejectsText tag classes) ch]
  exact ⟨hpp, fun d => by rw [hpp d], by decide, by decide⟩

end AcronymExpander
